import Mathlib

/-!
Verification development for the bevy-mesh-text-3d geometry pipeline.

The code under verification turns glyph outlines into extruded, beveled 3D
meshes.  This file gives a shallow embedding of the relevant source modules
(`src/offset.rs`, `src/mesh.rs`, `src/tess.rs`, `src/extrude_glyph.rs`) and
proves or refutes the testable properties stated in the specification.

Modelling conventions:
* `f32`/`f64` coordinate arithmetic is modelled by exact rational arithmetic
  (`ℚ`); floating-point rounding is outside the scope of the claims checked
  here.  `distance(a, b) < tol` comparisons are modelled by the exactly
  equivalent squared form `dist2 a b < tol^2` (the square root is monotone and
  both sides are nonnegative).
* Square roots that feed further arithmetic (perimeter lengths in
  `resample_contour`, `normalize_or_zero`) are abstracted by an explicit
  function parameter `sq : ℚ → ℚ`; no claim below depends on the numeric
  values it produces, only on structural data (lengths, counts, indices).
* External libraries (the cavalier_contours `Shape::parallel_offset` polygon
  offset and the lyon `FillTessellator`) are modelled as oracle function
  parameters; the repository code under test is everything around them.
* Rust `u32`/`u16` mesh indices are modelled by `ℕ`; the `as u32` truncation
  only differs from `ℕ` beyond 2^32 vertices, far outside any input
  considered by the claims.
-/

/-- Two-dimensional point with rational coordinates, modelling `bevy::Vec2`. -/
structure V2 where
  x : ℚ
  y : ℚ
deriving DecidableEq, Repr

/-- Three-dimensional point with rational coordinates, modelling `bevy::Vec3`. -/
structure V3 where
  x : ℚ
  y : ℚ
  z : ℚ
deriving DecidableEq, Repr

/-- Squared Euclidean distance; `distance(a,b) < c` in the source is modelled
as `dist2 a b < c^2`. -/
def dist2 (a b : V2) : ℚ :=
  (a.x - b.x) ^ 2 + (a.y - b.y) ^ 2

/-- `VERTEX_TOLERANCE` from src/offset.rs (1e-4). -/
def vertexTolerance : ℚ := 1 / 10000

/-- Squared vertex tolerance, used for the squared-distance comparisons. -/
def vertexToleranceSq : ℚ := vertexTolerance ^ 2

/-- `a.distance(b) < VERTEX_TOLERANCE` from the source, in squared form. -/
def closeVert (a b : V2) : Bool :=
  decide (dist2 a b < vertexToleranceSq)

/-- A polygon contour (src/offset.rs `Contour`). -/
structure Contour where
  vertices : List V2
  is_closed : Bool
deriving DecidableEq, Repr

/-- Bevel rings for one subcontour (src/offset.rs `BevelRings`). -/
structure BevelRings where
  outer_contour : Contour
  inner_contour : Contour
  rings : List Contour
deriving DecidableEq, Repr

/-- Error type of the crate (src/lib.rs `MeshTextError`); only the variants
reachable from the embedded functions are listed. -/
inductive MeshTextError where
  | InvalidContour
  | InvalidInput
  | TessellationFailed
  | InvalidMesh
deriving DecidableEq, Repr

/-- Rust `f32::round`: round half away from zero (Mathlib `round` rounds
half toward positive infinity, which differs on negative ties). -/
def rustRound (q : ℚ) : ℤ :=
  if 0 ≤ q then ⌊q + 1 / 2⌋ else -(⌊-q + 1 / 2⌋)

/-- The `HashSet` key used by the second pass of `deduplicate_vertices`:
coordinates divided by the tolerance and rounded. -/
def hashKey (v : V2) : ℤ × ℤ :=
  (rustRound (v.x / vertexTolerance), rustRound (v.y / vertexTolerance))

/-- First pass of `deduplicate_vertices`, with explicit fuel so the kernel
can evaluate it: remove consecutive vertices closer than the tolerance.  The
imperative loop keeps index `i` fixed while the successor is close (removing
it) and advances otherwise.  Every step shortens the remaining list, so
`fuel = l.length` never runs out. -/
def dedupConsecutiveF : ℕ → List V2 → List V2
  | 0, l => l
  | _ + 1, [] => []
  | _ + 1, [a] => [a]
  | fuel + 1, a :: b :: rest =>
    if closeVert a b then dedupConsecutiveF fuel (a :: rest)
    else a :: dedupConsecutiveF fuel (b :: rest)

/-- First pass of `deduplicate_vertices` (see `dedupConsecutiveF`). -/
def dedupConsecutive (l : List V2) : List V2 :=
  dedupConsecutiveF l.length l

/-- Second pass of `deduplicate_vertices`: keep the first vertex for each
rounded-coordinate hash key, preserving order (`seen` is the set of keys
already inserted). -/
def dedupByKey : List V2 → List (ℤ × ℤ) → List V2
  | [], _ => []
  | v :: rest, seen =>
    if hashKey v ∈ seen then dedupByKey rest seen
    else v :: dedupByKey rest (hashKey v :: seen)

/-- src/offset.rs `deduplicate_vertices`. -/
def deduplicate_vertices (l : List V2) : List V2 :=
  if l.length < 2 then l
  else dedupByKey (dedupConsecutive l) []

/-- Origin point, used as the default for guarded list accesses. -/
def vzero : V2 := ⟨0, 0⟩

/-- The final loop of `cleanup_vertices_for_offset`, with explicit fuel so
the kernel can evaluate it: remove vertices closer than the tolerance to
their cyclic successor while more than 3 vertices remain.  On a removal the
loop keeps `i` (breaking if `i` ran off the end), otherwise it advances `i`.
Every step decreases `2 * length - i`, so `fuel = 2 * l.length + 1` never
runs out. -/
def cleanupNeighborsF : ℕ → List V2 → ℕ → List V2
  | 0, l, _ => l
  | fuel + 1, l, i =>
    if i < l.length ∧ 3 < l.length then
      if closeVert (l.getD i vzero) (l.getD ((i + 1) % l.length) vzero) then
        -- `if i < next_idx then i else next_idx` in the source is `min i next_idx`
        if (l.eraseIdx (min i ((i + 1) % l.length))).length ≤ i
        then l.eraseIdx (min i ((i + 1) % l.length))
        else cleanupNeighborsF fuel (l.eraseIdx (min i ((i + 1) % l.length))) i
      else cleanupNeighborsF fuel l (i + 1)
    else l

/-- The final loop of `cleanup_vertices_for_offset` (see `cleanupNeighborsF`). -/
def cleanupNeighbors (l : List V2) (i : ℕ) : List V2 :=
  cleanupNeighborsF (2 * l.length + 1) l i

/-- src/offset.rs `cleanup_vertices_for_offset`. -/
def cleanup_vertices_for_offset (l : List V2) : List V2 :=
  if l.length < 3 then l
  else
    let l1 := deduplicate_vertices l
    if l1.length < 3 then l1
    else
      let l2 :=
        if 3 < l1.length then
          if closeVert (l1.getD 0 vzero) (l1.getD (l1.length - 1) vzero)
          then l1.dropLast else l1
        else l1
      cleanupNeighbors l2 0

/-- A cavalier_contours polyline vertex (`PlineVertex<f64>`); the code always
writes `bulge = 0.0`. -/
structure PlineVertex where
  x : ℚ
  y : ℚ
  bulge : ℚ
deriving DecidableEq, Repr

/-- A cavalier_contours polyline (`Polyline<f64>`). -/
structure Polyline where
  vertex_data : List PlineVertex
  is_closed : Bool
deriving DecidableEq, Repr

/-- src/offset.rs `contour_to_polyline`: clean the vertices, reject contours
left with fewer than 3 vertices, convert the rest (f32→f64 is exact). -/
def contour_to_polyline (c : Contour) : Except MeshTextError Polyline :=
  let vs := cleanup_vertices_for_offset c.vertices
  if vs.length < 3 then .error .InvalidContour
  else .ok ⟨vs.map fun v => ⟨v.x, v.y, 0⟩, c.is_closed⟩

/-- src/offset.rs `polyline_to_contour` (f64→f32 narrowing abstracted as
exact). -/
def polyline_to_contour (p : Polyline) : Contour :=
  ⟨p.vertex_data.map fun v => ⟨v.x, v.y⟩, p.is_closed⟩

/-- Lyon path events as consumed by `extract_contours`; only the fields the
source reads are kept (`from`/`last`/`first` are ignored there). -/
inductive PathEv where
  | begin (at_ : V2)
  | line (p : V2)
  | quadratic (ctrl p : V2)
  | cubic (ctrl1 ctrl2 p : V2)
  | ende (close : Bool)
deriving DecidableEq, Repr

/-- Scale of a point by a rational factor, then recentre and flip Y, exactly
as `extract_contours` maps each lyon coordinate into mesh space. -/
def transformPt (scale cx cy : ℚ) (p : V2) : V2 :=
  ⟨p.x * scale - cx, -(p.y * scale - cy)⟩

/-- Scalar multiple of a `V2`. -/
def vsmul (s : ℚ) (v : V2) : V2 := ⟨s * v.x, s * v.y⟩

/-- Sum of two `V2`. -/
def vadd (a b : V2) : V2 := ⟨a.x + b.x, a.y + b.y⟩

/-- Quadratic Bezier point at parameter `t` (the source's
`from*(1-t)^2 + ctrl*2(1-t)t + end*t^2`). -/
def quadPoint (fr ctrl tp : V2) (t : ℚ) : V2 :=
  vadd (vadd (vsmul ((1 - t) * (1 - t)) fr) (vsmul (2 * (1 - t) * t) ctrl))
    (vsmul (t * t) tp)

/-- Cubic Bezier point at parameter `t`. -/
def cubicPoint (fr c1 c2 tp : V2) (t : ℚ) : V2 :=
  vadd
    (vadd (vsmul ((1 - t) ^ 3) fr) (vsmul (3 * (1 - t) ^ 2 * t) c1))
    (vadd (vsmul (3 * (1 - t) * t ^ 2) c2) (vsmul (t ^ 3) tp))

/-- State of the `extract_contours` fold: finished contours, the vertices of
the contour in progress, and the recorded start position. -/
structure ExtractState where
  contours : List Contour
  current : List V2
  start : V2

/-- One `extract_contours` loop iteration. -/
def extractStep (scale cx cy : ℚ) (st : ExtractState) : PathEv → ExtractState
  | .begin p =>
    let s := transformPt scale cx cy p
    { contours := st.contours, current := [s], start := s }
  | .line p =>
    { st with current := st.current ++ [transformPt scale cx cy p] }
  | .quadratic ctrl p =>
    let fr := st.current.getLastD vzero
    let c := transformPt scale cx cy ctrl
    let t := transformPt scale cx cy p
    let pts := (List.range 8).map fun i => quadPoint fr c t (((i : ℚ) + 1) / 8)
    { st with current := st.current ++ pts }
  | .cubic c1 c2 p =>
    let fr := st.current.getLastD vzero
    let d1 := transformPt scale cx cy c1
    let d2 := transformPt scale cx cy c2
    let t := transformPt scale cx cy p
    let pts := (List.range 10).map fun i => cubicPoint fr d1 d2 t (((i : ℚ) + 1) / 10)
    { st with current := st.current ++ pts }
  | .ende close =>
    if 3 ≤ st.current.length then
      let deduped := deduplicate_vertices st.current
      let withClose :=
        if close then
          match deduped.getLast? with
          | some last =>
            -- source: `last.distance(start_pos) > VERTEX_TOLERANCE`
            if vertexToleranceSq < dist2 last st.start
            then deduped ++ [st.start] else deduped
          | none => deduped
        else deduped
      { contours := st.contours ++ [⟨withClose, close⟩], current := [], start := st.start }
    else { st with current := [] }

/-- src/offset.rs `extract_contours`: fold the path events, then flush any
leftover vertices as an open contour. -/
def extract_contours (events : List PathEv) (scale cx cy : ℚ) : List Contour :=
  let st := events.foldl (extractStep scale cx cy) ⟨[], [], vzero⟩
  if 3 ≤ st.current.length then
    st.contours ++ [⟨deduplicate_vertices st.current, false⟩]
  else st.contours

/-! ## Bevel ring engine (src/offset.rs `compute_bevel_rings`)

The cavalier_contours `Shape::parallel_offset` call is external to the
repository; it is modelled as an oracle `off : ℚ → List Polyline` mapping an
offset distance to the list of resulting polylines of the offset shape
(`ccw_plines` followed by `cw_plines`, exactly the order the source iterates).
The oracle is per input polyline, matching the source, which builds one
`Shape` from each polyline and repeatedly offsets that same shape. -/

/-- The progressive-offset loop of `compute_bevel_rings`.  `acc` is the
`bevel_rings` vector (already holding the original contour), `curr` the
current offset result.  Each iteration pushes every loop of the current
offset, stops once `maxCount` rings have been collected or an offset comes
back empty, and otherwise queries the next offset at distance
`acc.length * step` (the ring count reached so far times the step).  `fuel`
only bounds the recursion; `fuel = maxCount` is always sufficient because
every iteration grows `acc`. -/
def bevel_ring_loop (off : ℚ → List Polyline) (step : ℚ) (maxCount : ℕ) :
    ℕ → List Contour → List Polyline → List Contour
  | 0, acc, _ => acc
  | fuel + 1, acc, curr =>
    if curr.isEmpty ∨ maxCount ≤ acc.length then acc
    else
      let acc2 := acc ++ curr.map polyline_to_contour
      if maxCount ≤ acc2.length then acc2
      else bevel_ring_loop off step maxCount fuel acc2 (off ((acc2.length : ℚ) * step))

/-- Assemble one `BevelRings` value from the collected ring list, as the tail
of `compute_bevel_rings` does: first ring is the outer contour, last ring the
inner contour, everything strictly between is `rings`. -/
def assembleBevelRings (ringsAll : List Contour) (original : Contour) : BevelRings :=
  { outer_contour := ringsAll.headD original
    inner_contour := ringsAll.getLastD original
    rings := if 2 < ringsAll.length then (ringsAll.drop 1).dropLast else [] }

/-- src/offset.rs `compute_bevel_rings`.  `offOf` gives the offset oracle for
each polyline (the source builds a `Shape` from the polyline and offsets it).
Contours that fail `contour_to_polyline` are skipped with a log message;
polylines with fewer than 3 vertices are skipped (redundant after
`contour_to_polyline`, but kept from the source).  The `profile_power`
parameter is accepted and never used, as in the source. -/
def compute_bevel_rings (offOf : Polyline → ℚ → List Polyline)
    (contours : List Contour) (bevel_width : ℚ) (bevel_segments : ℕ)
    (profile_power : ℚ) : Except MeshTextError (List BevelRings) :=
  let polylines := contours.filterMap fun c => (contour_to_polyline c).toOption
  let maxRingCount := max bevel_segments 1 + 1
  let offsetStep := bevel_width / (bevel_segments : ℚ)
  .ok <| polylines.filterMap fun pl =>
    if pl.vertex_data.length < 3 then none
    else
      let original := polyline_to_contour pl
      let ringsAll := bevel_ring_loop (offOf pl) offsetStep maxRingCount maxRingCount
        [original] (offOf pl offsetStep)
      some (assembleBevelRings ringsAll original)

deriving instance DecidableEq for Except

/-! ## Ring-count lemmas for the bevel loop -/

/-- If every offset result has at most one loop and the accumulator is within
the cap, the loop never exceeds the cap. -/
theorem bevel_ring_loop_length_le (off : ℚ → List Polyline) (step : ℚ)
    (maxCount : ℕ) (hoff : ∀ d, (off d).length ≤ 1) :
    ∀ fuel (acc : List Contour) (curr : List Polyline),
      acc.length ≤ maxCount → curr.length ≤ 1 →
      (bevel_ring_loop off step maxCount fuel acc curr).length ≤ maxCount := by
  intro fuel
  induction fuel with
  | zero => intro acc curr hacc _; simpa [bevel_ring_loop] using hacc
  | succ fuel ih =>
    intro acc curr hacc hcurr
    simp only [bevel_ring_loop]
    split_ifs with h1 h2
    · exact hacc
    · have hlt : acc.length < maxCount := by
        rcases not_or.mp h1 with ⟨_, h⟩
        omega
      simp only [List.length_append, List.length_map]
      omega
    · apply ih
      · have hlt : acc.length < maxCount := by
          rcases not_or.mp h1 with ⟨_, h⟩
          omega
        simp only [List.length_append, List.length_map]
        omega
      · exact hoff _

/-- If every offset result has exactly one loop and enough fuel remains, the
loop fills the accumulator exactly to the cap. -/
theorem bevel_ring_loop_length_eq (off : ℚ → List Polyline) (step : ℚ)
    (maxCount : ℕ) (hoff : ∀ d, (off d).length = 1) :
    ∀ fuel (acc : List Contour) (curr : List Polyline),
      acc.length ≤ maxCount → maxCount ≤ acc.length + fuel → curr.length = 1 →
      (bevel_ring_loop off step maxCount fuel acc curr).length = maxCount := by
  intro fuel
  induction fuel with
  | zero =>
    intro acc curr hacc hfuel _
    have h : acc.length = maxCount := by omega
    simpa [bevel_ring_loop] using h
  | succ fuel ih =>
    intro acc curr hacc hfuel hcurr
    have hne : ¬ curr.isEmpty = true := by
      cases curr with
      | nil => simp at hcurr
      | cons a t => simp [List.isEmpty]
    simp only [bevel_ring_loop]
    split_ifs with h1 h2
    · rcases h1 with h1 | h1
      · exact absurd h1 hne
      · omega
    · simp only [List.length_append, List.length_map]
      have hlt : acc.length < maxCount := by
        rcases not_or.mp h1 with ⟨_, h⟩
        omega
      simp only [List.length_append, List.length_map] at h2
      omega
    · apply ih
      · simp only [List.length_append, List.length_map] at h2 ⊢
        omega
      · simp only [List.length_append, List.length_map]
        omega
      · exact hoff _

/-- Number of intermediate rings produced by `assembleBevelRings`. -/
theorem assembleBevelRings_rings_length (l : List Contour) (orig : Contour) :
    (assembleBevelRings l orig).rings.length =
      if 2 < l.length then l.length - 2 else 0 := by
  simp only [assembleBevelRings]
  by_cases h : 2 < l.length
  · simp only [h, if_true, List.length_dropLast, List.length_drop]
    omega
  · simp [h]

/-- Membership in the result of `compute_bevel_rings` comes from a polyline
whose ring list was produced by the loop. -/
theorem compute_bevel_rings_mem (offOf : Polyline → ℚ → List Polyline)
    (contours : List Contour) (bw pp : ℚ) (n : ℕ) (rs : List BevelRings)
    (hok : compute_bevel_rings offOf contours bw n pp = .ok rs) :
    ∀ b ∈ rs, ∃ pl,
      b = assembleBevelRings
        (bevel_ring_loop (offOf pl) (bw / (n : ℚ)) (max n 1 + 1) (max n 1 + 1)
          [polyline_to_contour pl] (offOf pl (bw / (n : ℚ))))
        (polyline_to_contour pl) := by
  intro b hb
  simp only [compute_bevel_rings, Except.ok.injEq] at hok
  subst hok
  rcases List.mem_filterMap.mp hb with ⟨pl, _, hpl⟩
  by_cases hlen : pl.vertex_data.length < 3
  · simp [hlen] at hpl
  · simp only [hlen, if_false, Option.some.injEq] at hpl
    exact ⟨pl, hpl.symm⟩

/-! ## Concrete inputs for the bevel-ring claims -/

/-- A unit square contour; its vertices are far apart relative to the vertex
tolerance, so `contour_to_polyline` keeps all four. -/
def squareContour : Contour := ⟨[⟨0, 0⟩, ⟨1, 0⟩, ⟨1, 1⟩, ⟨0, 1⟩], true⟩

/-- The unit square as a polyline. -/
def squarePolyline : Polyline := ⟨[⟨0, 0, 0⟩, ⟨1, 0, 0⟩, ⟨1, 1, 0⟩, ⟨0, 1, 0⟩], true⟩

/-- Offset oracle that always returns a single loop, modelling an inward
offset that never splits and never vanishes. -/
def oneLoopOffset : Polyline → ℚ → List Polyline := fun _ _ => [squarePolyline]

/-- Offset oracle that returns two loops on every query, modelling a shape
that splits in two at the first inward offset (e.g. a dumbbell outline). -/
def twoLoopOffset : Polyline → ℚ → List Polyline :=
  fun _ _ => [squarePolyline, squarePolyline]

/-- Offset oracle that returns three loops on every query. -/
def threeLoopOffset : Polyline → ℚ → List Polyline :=
  fun _ _ => [squarePolyline, squarePolyline, squarePolyline]

/-! ## C1 -/

/-- C1 (corrected, counterexample): the claim's bound
`outer + rings + inner ≤ n + 1` fails when a single parallel offset splits
into several loops: with `bevel_segments = 2` and an offset that returns
three loops, the emitted `BevelRings` entry has
`rings.len() + 2 = 4 > 3 = n + 1` — the loop pushes every loop of the
current offset before re-checking the ring cap. -/
theorem compute_bevel_rings_ring_count_counterexample :
    ((compute_bevel_rings threeLoopOffset [squareContour] 2 2 1).toOption.getD []).map
        (fun b => b.rings.length + 2) = [4] := by
  with_unfolding_all decide

/-- C1 (amended): assume `bevel_segments = n ≥ 1` and that every parallel
offset yields at most one loop (no splitting).  Then every emitted
`BevelRings` entry satisfies `rings.len() + 2 ≤ n + 1`, and if moreover every
offset yields exactly one loop (no early vanishing), `rings.len() + 2 = n + 1`
exactly (outer contour, intermediate rings, inner contour). -/
theorem compute_bevel_rings_ring_count (offOf : Polyline → ℚ → List Polyline)
    (contours : List Contour) (bw pp : ℚ) (n : ℕ) (rs : List BevelRings)
    (hn : 1 ≤ n)
    (hok : compute_bevel_rings offOf contours bw n pp = .ok rs)
    (hle : ∀ pl d, (offOf pl d).length ≤ 1) :
    (∀ b ∈ rs, b.rings.length + 2 ≤ n + 1) ∧
    ((∀ pl d, (offOf pl d).length = 1) → ∀ b ∈ rs, b.rings.length + 2 = n + 1) := by
  have hmem := compute_bevel_rings_mem offOf contours bw pp n rs hok
  have hmax : max n 1 = n := Nat.max_eq_left hn
  constructor
  · intro b hb
    rcases hmem b hb with ⟨pl, hbev⟩
    simp only [hmax] at hbev
    have hL := bevel_ring_loop_length_le (offOf pl) (bw / (n : ℚ)) (n + 1)
      (hle pl) (n + 1) [polyline_to_contour pl] (offOf pl (bw / (n : ℚ)))
      (by simp) (hle pl _)
    rw [hbev, assembleBevelRings_rings_length]
    split_ifs with h2 <;> omega
  · intro heq b hb
    rcases hmem b hb with ⟨pl, hbev⟩
    simp only [hmax] at hbev
    have hL := bevel_ring_loop_length_eq (offOf pl) (bw / (n : ℚ)) (n + 1)
      (heq pl) (n + 1) [polyline_to_contour pl] (offOf pl (bw / (n : ℚ)))
      (by simp) (by simp) (heq pl _)
    rw [hbev, assembleBevelRings_rings_length]
    split_ifs with h2 <;> omega

/-- C1 witness: for the unit square with `bevel_segments = 4` and a
never-splitting, never-vanishing offset, the single emitted entry has exactly
`3 + 2 = 4 + 1` logical rings. -/
theorem compute_bevel_rings_ring_count_witness :
    (⟨squareContour, squareContour,
        [squareContour, squareContour, squareContour]⟩ : BevelRings).rings.length + 2
      = 4 + 1 :=
  (compute_bevel_rings_ring_count oneLoopOffset [squareContour] 2 1 4
      [⟨squareContour, squareContour, [squareContour, squareContour, squareContour]⟩]
      (by norm_num) (by with_unfolding_all decide)
      (by intro _ _; simp [oneLoopOffset])).2
    (by intro _ _; simp [oneLoopOffset]) _ (by simp)

/-! ## C6 -/

/-- C6 (corrected, counterexample): with `bevel_segments = 1`, `rings` is
*not* always empty: if the first parallel offset splits into two loops, both
are pushed before the ring cap is re-checked, and one of them becomes an
intermediate ring. -/
theorem bevel_segments_one_rings_empty_counterexample :
    ((compute_bevel_rings twoLoopOffset [squareContour] 2 1 1).toOption.getD []).map
        (fun b => b.rings.length) = [1] := by
  with_unfolding_all decide

/-- C6 (amended): with `bevel_segments = 1`, provided every parallel offset
yields at most one loop, every emitted `BevelRings` entry has empty `rings`
(only `outer_contour` and `inner_contour` are present). -/
theorem bevel_segments_one_rings_empty (offOf : Polyline → ℚ → List Polyline)
    (contours : List Contour) (bw pp : ℚ) (rs : List BevelRings)
    (hok : compute_bevel_rings offOf contours bw 1 pp = .ok rs)
    (hle : ∀ pl d, (offOf pl d).length ≤ 1) :
    ∀ b ∈ rs, b.rings = [] := by
  intro b hb
  rcases compute_bevel_rings_mem offOf contours bw pp 1 rs hok b hb with ⟨pl, hbev⟩
  have hmax : max 1 1 = 1 := rfl
  simp only [hmax] at hbev
  have hL := bevel_ring_loop_length_le (offOf pl) (bw / ((1 : ℕ) : ℚ)) (1 + 1)
    (hle pl) (1 + 1) [polyline_to_contour pl] (offOf pl (bw / ((1 : ℕ) : ℚ)))
    (by simp) (hle pl _)
  rw [hbev]
  simp only [assembleBevelRings]
  rw [if_neg (by omega)]

/-- C6 witness: for the unit square with a single-loop offset oracle and
`bevel_segments = 1`, the emitted entry's `rings` is empty. -/
theorem bevel_segments_one_rings_empty_witness :
    (⟨squareContour, squareContour, []⟩ : BevelRings).rings = [] :=
  bevel_segments_one_rings_empty oneLoopOffset [squareContour] 2 1
    [⟨squareContour, squareContour, []⟩]
    (by with_unfolding_all decide) (by intro _ _; simp [oneLoopOffset])
    _ (by simp)

/-! ## C9 -/

/-- C9 (confirmed): `compute_bevel_rings` does not depend on the
`profile_power` argument — two calls differing only in `profile_power`
return identical results (the parameter is accepted and never read; the
per-ring offset distance is always the ring count times the linear step). -/
theorem compute_bevel_rings_profile_power_independent
    (offOf : Polyline → ℚ → List Polyline) (contours : List Contour)
    (bw : ℚ) (n : ℕ) (p1 p2 : ℚ) :
    compute_bevel_rings offOf contours bw n p1 =
      compute_bevel_rings offOf contours bw n p2 := rfl

/-! ## Lemmas for vertex cleanup (claims C5 and C7) -/

/-- `closeVert` is symmetric. -/
theorem closeVert_comm (a b : V2) : closeVert a b = closeVert b a := by
  simp only [closeVert, dist2]
  ring_nf

/-- On a list whose vertices are all pairwise within tolerance, the
consecutive-duplicate pass collapses the list to its first element. -/
theorem dedupConsecutiveF_all_close (fuel : ℕ) :
    ∀ l : List V2, l.length ≤ fuel →
      (∀ a ∈ l, ∀ b ∈ l, closeVert a b = true) →
      dedupConsecutiveF fuel l = l.take 1 := by
  induction fuel with
  | zero =>
    intro l hlen _
    have : l = [] := List.eq_nil_of_length_eq_zero (Nat.le_zero.mp hlen)
    simp [this, dedupConsecutiveF]
  | succ fuel ih =>
    intro l hlen hclose
    match l with
    | [] => simp [dedupConsecutiveF]
    | [a] => simp [dedupConsecutiveF]
    | a :: b :: rest =>
      have hab : closeVert a b = true :=
        hclose a (by simp) b (by simp)
      simp only [dedupConsecutiveF, hab, if_true]
      have hsub : ∀ x ∈ a :: rest, ∀ y ∈ a :: rest, closeVert x y = true := by
        intro x hx y hy
        have hx2 : x ∈ a :: b :: rest := by
          rcases List.mem_cons.mp hx with h | h
          · simp [h]
          · simp [h]
        have hy2 : y ∈ a :: b :: rest := by
          rcases List.mem_cons.mp hy with h | h
          · simp [h]
          · simp [h]
        exact hclose x hx2 y hy2
      have hrec := ih (a :: rest)
        (by simp only [List.length_cons] at hlen ⊢; omega) hsub
      simpa using hrec

/-- On a list whose consecutive vertices are all at least the tolerance
apart, the consecutive-duplicate pass is the identity. -/
theorem dedupConsecutiveF_id (fuel : ℕ) :
    ∀ l : List V2, l.length ≤ fuel →
      List.Chain' (fun a b => closeVert a b = false) l →
      dedupConsecutiveF fuel l = l := by
  induction fuel with
  | zero =>
    intro l hlen _
    have : l = [] := List.eq_nil_of_length_eq_zero (Nat.le_zero.mp hlen)
    simp [this, dedupConsecutiveF]
  | succ fuel ih =>
    intro l hlen hchain
    match l with
    | [] => simp [dedupConsecutiveF]
    | [a] => simp [dedupConsecutiveF]
    | a :: b :: rest =>
      have hab : closeVert a b = false := (List.chain'_cons.mp hchain).1
      simp only [dedupConsecutiveF, hab, Bool.false_eq_true, if_false]
      exact congrArg (a :: ·)
        (ih (b :: rest) (by simp only [List.length_cons] at hlen ⊢; omega)
          (List.chain'_cons.mp hchain).2)

/-- The hash-key pass keeps every vertex when all keys are pairwise distinct
and none was seen before. -/
theorem dedupByKey_id :
    ∀ (l : List V2) (seen : List (ℤ × ℤ)),
      (∀ v ∈ l, hashKey v ∉ seen) →
      l.Pairwise (fun a b => hashKey a ≠ hashKey b) →
      dedupByKey l seen = l := by
  intro l
  induction l with
  | nil => intro seen _ _; simp [dedupByKey]
  | cons v rest ih =>
    intro seen hseen hpair
    have hv : hashKey v ∉ seen := hseen v (by simp)
    simp only [dedupByKey, hv, if_neg, if_false]
    rw [ih (hashKey v :: seen)]
    · intro w hw
      simp only [List.mem_cons, not_or]
      exact ⟨fun he => (List.pairwise_cons.mp hpair).1 w hw he.symm,
        hseen w (List.mem_cons_of_mem _ hw)⟩
    · exact (List.pairwise_cons.mp hpair).2

/-- The neighbor-removal loop is the identity when every vertex is at least
the tolerance away from its cyclic successor. -/
theorem cleanupNeighborsF_id (fuel : ℕ) :
    ∀ (l : List V2) (i : ℕ),
      (∀ j, j < l.length →
        closeVert (l.getD j vzero) (l.getD ((j + 1) % l.length) vzero) = false) →
      cleanupNeighborsF fuel l i = l := by
  induction fuel with
  | zero => intro l i _; rfl
  | succ fuel ih =>
    intro l i hfar
    rw [cleanupNeighborsF]
    by_cases h1 : i < l.length ∧ 3 < l.length
    · rw [if_pos h1]
      have hc := hfar i h1.1
      simp only [hc, Bool.false_eq_true, if_false]
      exact ih l (i + 1) hfar
    · rw [if_neg h1]

/-! ## C5 -/

/-- A degenerate path: three coincident vertices, then a close command. -/
def singlePointPath : List PathEv := [.begin vzero, .line vzero, .line vzero, .ende true]

/-- C5 (corrected, counterexample): `extract_contours` checks the *raw*
vertex count (before deduplication) against 3, so a closed path of three
coincident points is emitted as a single-vertex contour: the extractor does
*not* drop every contour whose post-dedup count is below 3, and does *not*
reject a contour degenerated to a single point. -/
theorem contour_extractor_drop_counterexample :
    extract_contours singlePointPath 1 0 0 = [⟨[vzero], true⟩] ∧
    ((extract_contours singlePointPath 1 0 0).map fun c => c.vertices.length) = [1] := by
  refine ⟨?_, ?_⟩ <;> with_unfolding_all decide

/-- C5 (amended): a contour whose vertices all lie within the vertex
tolerance of each other (a single-point contour) is rejected by the bevel
ring engine: `contour_to_polyline` fails with `InvalidContour`, and
`compute_bevel_rings` skips it, so it is never passed to polygon offsetting.
(The contour extractor itself only drops contours with fewer than 3 *raw*
vertices and can still emit such degenerate contours.) -/
theorem degenerate_contour_rejected_by_engine
    (offOf : Polyline → ℚ → List Polyline) (c : Contour) (bw pp : ℚ) (n : ℕ)
    (hclose : ∀ a ∈ c.vertices, ∀ b ∈ c.vertices, closeVert a b = true) :
    contour_to_polyline c = .error .InvalidContour ∧
    compute_bevel_rings offOf [c] bw n pp = .ok [] := by
  have hclean : (cleanup_vertices_for_offset c.vertices).length < 3 := by
    by_cases hlen : c.vertices.length < 3
    · rw [cleanup_vertices_for_offset, if_pos hlen]
      exact hlen
    · obtain ⟨a, rest, hl⟩ : ∃ a rest, c.vertices = a :: rest := by
        cases hv : c.vertices with
        | nil => rw [hv] at hlen; simp at hlen
        | cons a rest => exact ⟨a, rest, rfl⟩
      have hdc : dedupConsecutive c.vertices = c.vertices.take 1 :=
        dedupConsecutiveF_all_close _ _ le_rfl hclose
      have hdedup : deduplicate_vertices c.vertices = [a] := by
        rw [deduplicate_vertices, if_neg (by omega)]
        rw [hdc, hl]
        simp [dedupByKey]
      simp only [cleanup_vertices_for_offset, hlen, if_false, hdedup]
      simp
  have herr : contour_to_polyline c = .error .InvalidContour := by
    simp only [contour_to_polyline, hclean, if_pos]
  refine ⟨herr, ?_⟩
  have hfm : (contour_to_polyline c).toOption = none := by rw [herr]; rfl
  simp [compute_bevel_rings, hfm]

/-- C5 witness: a closed triangle collapsed to the origin is rejected by
`contour_to_polyline` and skipped by `compute_bevel_rings`. -/
theorem degenerate_contour_rejected_by_engine_witness :
    contour_to_polyline ⟨[vzero, vzero, vzero], true⟩ = .error .InvalidContour ∧
    compute_bevel_rings oneLoopOffset [⟨[vzero, vzero, vzero], true⟩] 2 4 1 = .ok [] :=
  degenerate_contour_rejected_by_engine oneLoopOffset ⟨[vzero, vzero, vzero], true⟩
    2 1 4 (by with_unfolding_all decide)

/-! ## C7 -/

/-- The round trip of the claim: convert a contour to a cavalier_contours
polyline and back. -/
def polyline_round_trip (c : Contour) : Except MeshTextError Contour :=
  (contour_to_polyline c).map polyline_to_contour

/-- First vertex of `nearPairContour` (0.45 of the tolerance on each axis). -/
def npV1 : V2 := ⟨9/200000, 9/200000⟩

/-- Second vertex of `nearPairContour` (the negation of `npV1`; about 1.27
tolerances away from it, but with the same rounded hash key). -/
def npV2 : V2 := ⟨-(9/200000), -(9/200000)⟩

/-- Third vertex of `nearPairContour`. -/
def npA : V2 := ⟨1, 0⟩

/-- Fourth vertex of `nearPairContour`. -/
def npB : V2 := ⟨0, 1⟩

/-- A closed contour with four pairwise-distinct vertices (all farther than
the vertex tolerance apart) whose first two vertices nevertheless share a
dedup hash key. -/
def nearPairContour : Contour := ⟨[npV1, npV2, npA, npB], true⟩

/-- C7 (corrected, counterexample): the round trip does *not* reproduce every
contour with at least 3 unique vertices.  `nearPairContour` has 4 vertices,
pairwise farther apart than the tolerance (the first pair is about 1.27
tolerances apart), yet the hash-rounding pass of `deduplicate_vertices`
assigns the first two vertices the same key and drops the second, so the
round trip returns only 3 vertices and no output vertex is within tolerance
of the dropped one. -/
theorem polyline_round_trip_counterexample :
    3 ≤ nearPairContour.vertices.length ∧
    nearPairContour.vertices.Pairwise (fun a b => closeVert a b = false) ∧
    polyline_round_trip nearPairContour = .ok ⟨[npV1, npA, npB], true⟩ ∧
    (((polyline_round_trip nearPairContour).toOption.getD ⟨[], true⟩).vertices.map
        fun w => closeVert w npV2) = [false, false, false] := by
  have h12 : closeVert npV1 npV2 = false := by
    simp only [closeVert, dist2, vertexToleranceSq, vertexTolerance, npV1, npV2,
      decide_eq_false_iff_not, not_lt]
    norm_num
  have h13 : closeVert npV1 npA = false := by
    simp only [closeVert, dist2, vertexToleranceSq, vertexTolerance, npV1, npA,
      decide_eq_false_iff_not, not_lt]
    norm_num
  have h14 : closeVert npV1 npB = false := by
    simp only [closeVert, dist2, vertexToleranceSq, vertexTolerance, npV1, npB,
      decide_eq_false_iff_not, not_lt]
    norm_num
  have h23 : closeVert npV2 npA = false := by
    simp only [closeVert, dist2, vertexToleranceSq, vertexTolerance, npV2, npA,
      decide_eq_false_iff_not, not_lt]
    norm_num
  have h24 : closeVert npV2 npB = false := by
    simp only [closeVert, dist2, vertexToleranceSq, vertexTolerance, npV2, npB,
      decide_eq_false_iff_not, not_lt]
    norm_num
  have h34 : closeVert npA npB = false := by
    simp only [closeVert, dist2, vertexToleranceSq, vertexTolerance, npA, npB,
      decide_eq_false_iff_not, not_lt]
    norm_num
  have hk1 : hashKey npV1 = (0, 0) := by
    simp only [hashKey, rustRound, vertexTolerance, npV1]
    norm_num
  have hk2 : hashKey npV2 = (0, 0) := by
    simp only [hashKey, rustRound, vertexTolerance, npV2]
    norm_num
  have hk3 : hashKey npA = (10000, 0) := by
    simp only [hashKey, rustRound, vertexTolerance, npA]
    norm_num
  have hk4 : hashKey npB = (0, 10000) := by
    simp only [hashKey, rustRound, vertexTolerance, npB]
    norm_num
  have hdc : dedupConsecutive [npV1, npV2, npA, npB] = [npV1, npV2, npA, npB] := by
    rw [dedupConsecutive]
    exact dedupConsecutiveF_id _ _ le_rfl
      (List.chain'_cons.mpr ⟨h12, List.chain'_cons.mpr ⟨h23,
        List.chain'_cons.mpr ⟨h34, List.chain'_singleton _⟩⟩⟩)
  have hdk : dedupByKey [npV1, npV2, npA, npB] [] = [npV1, npA, npB] := by
    simp [dedupByKey, hk1, hk2, hk3, hk4]
  have hdedup : deduplicate_vertices [npV1, npV2, npA, npB] = [npV1, npA, npB] := by
    rw [deduplicate_vertices, if_neg (by simp), hdc, hdk]
  have hcyc : ∀ j, j < ([npV1, npA, npB] : List V2).length →
      closeVert (([npV1, npA, npB] : List V2).getD j vzero)
        (([npV1, npA, npB] : List V2).getD ((j + 1) % ([npV1, npA, npB] : List V2).length)
          vzero) = false := by
    intro j hj
    simp only [List.length_cons, List.length_nil] at hj
    interval_cases j
    · simpa [List.getD] using h13
    · simpa [List.getD] using h34
    · rw [closeVert_comm] at h14
      simpa [List.getD] using h14
  have hcn : cleanupNeighbors [npV1, npA, npB] 0 = [npV1, npA, npB] :=
    cleanupNeighborsF_id _ _ _ hcyc
  have hclean : cleanup_vertices_for_offset [npV1, npV2, npA, npB] = [npV1, npA, npB] := by
    rw [cleanup_vertices_for_offset, if_neg (by simp)]
    simp only [hdedup]
    rw [if_neg (by simp), if_neg (by simp), hcn]
  have hpoly : contour_to_polyline nearPairContour =
      .ok ⟨[⟨npV1.x, npV1.y, 0⟩, ⟨npA.x, npA.y, 0⟩, ⟨npB.x, npB.y, 0⟩], true⟩ := by
    simp only [contour_to_polyline, nearPairContour, hclean]
    rw [if_neg (by simp)]
    rfl
  have hrt : polyline_round_trip nearPairContour = .ok ⟨[npV1, npA, npB], true⟩ := by
    rw [polyline_round_trip, hpoly]
    rfl
  refine ⟨by simp [nearPairContour], ?_, hrt, ?_⟩
  · simp only [nearPairContour]
    refine List.Pairwise.cons ?_ (List.Pairwise.cons ?_ (List.Pairwise.cons ?_
      (List.pairwise_singleton _ _)))
    · intro y hy
      rcases List.mem_cons.mp hy with h | hy
      · subst h; exact h12
      rcases List.mem_cons.mp hy with h | hy
      · subst h; exact h13
      rcases List.mem_cons.mp hy with h | hy
      · subst h; exact h14
      · simp at hy
    · intro y hy
      rcases List.mem_cons.mp hy with h | hy
      · subst h; exact h23
      rcases List.mem_cons.mp hy with h | hy
      · subst h; exact h24
      · simp at hy
    · intro y hy
      rcases List.mem_cons.mp hy with h | hy
      · subst h; exact h34
      · simp at hy
  · rw [hrt]
    have ha2 : closeVert npA npV2 = false := by rw [closeVert_comm]; exact h23
    have hb2 : closeVert npB npV2 = false := by rw [closeVert_comm]; exact h24
    simp [Except.toOption, h12, ha2, hb2]

/-- C7 (amended): the round trip reproduces the contour *exactly* (hence in
particular within the vertex tolerance) for every contour with at least 3
vertices whose cyclically consecutive vertices are at least the tolerance
apart and whose vertices have pairwise distinct dedup hash keys. -/
theorem polyline_round_trip_exact (c : Contour)
    (h3 : 3 ≤ c.vertices.length)
    (hcyc : ∀ j, j < c.vertices.length →
      closeVert (c.vertices.getD j vzero)
        (c.vertices.getD ((j + 1) % c.vertices.length) vzero) = false)
    (hkeys : c.vertices.Pairwise (fun a b => hashKey a ≠ hashKey b)) :
    polyline_round_trip c = .ok c := by
  have hchain : List.Chain' (fun a b => closeVert a b = false) c.vertices := by
    rw [List.chain'_iff_get]
    intro i hi
    have hi1 : i < c.vertices.length := by omega
    have hi2 : i + 1 < c.vertices.length := by omega
    have hmod : (i + 1) % c.vertices.length = i + 1 := Nat.mod_eq_of_lt hi2
    have h2 := hcyc i hi1
    rw [hmod, List.getD_eq_get _ _ hi1, List.getD_eq_get _ _ hi2] at h2
    exact h2
  have hdc : dedupConsecutive c.vertices = c.vertices :=
    dedupConsecutiveF_id _ _ le_rfl hchain
  have hdk : dedupByKey c.vertices [] = c.vertices :=
    dedupByKey_id _ [] (by simp) hkeys
  have hdedup : deduplicate_vertices c.vertices = c.vertices := by
    rw [deduplicate_vertices, if_neg (by omega), hdc, hdk]
  have hfl : 3 < c.vertices.length →
      closeVert (c.vertices.getD 0 vzero)
        (c.vertices.getD (c.vertices.length - 1) vzero) = false := by
    intro h4
    have hlast := hcyc (c.vertices.length - 1) (by omega)
    have hmod : (c.vertices.length - 1 + 1) % c.vertices.length = 0 := by
      have : c.vertices.length - 1 + 1 = c.vertices.length := by omega
      rw [this, Nat.mod_self]
    rw [hmod] at hlast
    rw [closeVert_comm]
    exact hlast
  have hcn : cleanupNeighbors c.vertices 0 = c.vertices :=
    cleanupNeighborsF_id _ _ _ hcyc
  have hclean : cleanup_vertices_for_offset c.vertices = c.vertices := by
    rw [cleanup_vertices_for_offset, if_neg (by omega)]
    simp only [hdedup]
    rw [if_neg (by omega)]
    by_cases h4 : 3 < c.vertices.length
    · rw [if_pos h4, if_neg (by rw [hfl h4]; simp), hcn]
    · rw [if_neg h4, hcn]
  have hok : contour_to_polyline c =
      .ok ⟨c.vertices.map fun v => ⟨v.x, v.y, 0⟩, c.is_closed⟩ := by
    simp only [contour_to_polyline, hclean]
    rw [if_neg (by omega)]
  simp only [polyline_round_trip, hok, Except.map, polyline_to_contour]
  have hcomp : ((fun v : PlineVertex => (⟨v.x, v.y⟩ : V2)) ∘
      fun v : V2 => (⟨v.x, v.y, 0⟩ : PlineVertex)) = id := funext fun v => rfl
  rw [List.map_map, hcomp, List.map_id]

/-- C7 witness: the round trip reproduces a concrete closed triangle exactly. -/
theorem polyline_round_trip_exact_witness :
    polyline_round_trip ⟨[⟨0, 0⟩, ⟨1, 0⟩, ⟨0, 1⟩], true⟩ =
      .ok ⟨[⟨0, 0⟩, ⟨1, 0⟩, ⟨0, 1⟩], true⟩ :=
  polyline_round_trip_exact ⟨[⟨0, 0⟩, ⟨1, 0⟩, ⟨0, 1⟩], true⟩
    (by norm_num) (by with_unfolding_all decide) (by with_unfolding_all decide)

/-! ## C4: front-cap tessellation fallback ladder (src/tess.rs and
src/extrude_glyph.rs `try_tessellation_with_fallbacks`)

The lyon `FillTessellator` is external; it is modelled as an oracle from the
fill options the code sets to an optional buffer pair (`none` = the
tessellation error the code maps to `TessellationFailed`). -/

/-- Lyon fill rule (`lyon::tessellation::FillRule`). -/
inductive FillRule where
  | EvenOdd
  | NonZero
deriving DecidableEq, Repr

/-- The part of lyon `FillOptions` the code sets: tolerance and fill rule.
`FillOptions::default()` has tolerance 0.1 and the even-odd fill rule. -/
structure FillOpts where
  tolerance : ℚ
  fill_rule : FillRule
deriving DecidableEq, Repr

/-- Vertex/index buffers filled by one tessellation run
(`VertexBuffers<Vec3, u16>`). -/
structure TessBuffers where
  vertices : List V3
  indices : List ℕ
deriving DecidableEq, Repr

/-- src/tess.rs `try_tessellation_with_fallbacks`: three attempts on one
mutated `options` value.  Attempt 1 sets tolerance 0.25 on default options;
attempt 2 raises the tolerance to 0.5; attempt 3 switches the fill rule to
non-zero but — because the source keeps mutating the same `options` — the
tolerance is still the 0.5 set by attempt 2.  The buffers are cleared before
each retry, so the result is exactly the successful attempt's output. -/
def try_tessellation_with_fallbacks (tess : FillOpts → Option TessBuffers) :
    Option TessBuffers :=
  match tess ⟨1/4, .EvenOdd⟩ with
  | some g => some g
  | none =>
    match tess ⟨1/2, .EvenOdd⟩ with
    | some g => some g
    | none => tess ⟨1/2, .NonZero⟩

/-- src/extrude_glyph.rs `try_tessellation_with_fallbacks`: same ladder shape
but each attempt builds fresh `FillOptions::default()`, so attempt 1 runs at
lyon's default tolerance 0.1, attempt 2 at tolerance 0.5
(`FALLBACK_TESSELLATION_TOLERANCE`), and attempt 3 at the default tolerance
0.1 with the non-zero fill rule.  Each attempt tessellates the front and back
faces (a buffer pair). -/
def try_tessellation_with_fallbacks_extrude
    (tess : FillOpts → Option (TessBuffers × TessBuffers)) :
    Option (TessBuffers × TessBuffers) :=
  match tess ⟨1/10, .EvenOdd⟩ with
  | some g => some g
  | none =>
    match tess ⟨1/2, .EvenOdd⟩ with
    | some g => some g
    | none => tess ⟨1/10, .NonZero⟩

/-- Modelled from the spec: the three strategies §4.2 describes for the
front cap — (1) default tolerance (0.25 in tess.rs) and odd-even fill,
(2) doubled tolerance, (3) default tolerance with the non-zero fill rule. -/
def specFallbackAttempts : List FillOpts :=
  [⟨1/4, .EvenOdd⟩, ⟨1/2, .EvenOdd⟩, ⟨1/4, .NonZero⟩]

/-- A tessellation oracle that succeeds only at tolerance 0.25 with the
non-zero fill rule — exactly the spec's third strategy. -/
def nonZeroOnlyTess : FillOpts → Option TessBuffers :=
  fun o => if o = ⟨1/4, .NonZero⟩ then some ⟨[], []⟩ else none

/-- C4 (corrected, counterexample): the third retry of the front-cap ladder
does *not* run at the default tolerance — it reuses the doubled tolerance
0.5 from the second attempt.  With a tessellator that succeeds exactly at
(tolerance 0.25, non-zero fill) — the spec's third strategy — the spec's
ladder would succeed on its third attempt, but the code fails all three
attempts and reports `TessellationFailed`. -/
theorem try_tessellation_fallbacks_counterexample :
    specFallbackAttempts.map nonZeroOnlyTess = [none, none, some ⟨[], []⟩] ∧
    try_tessellation_with_fallbacks nonZeroOnlyTess = none := by
  constructor <;> with_unfolding_all decide

/-- C4 (amended): both fallback ladders try exactly three strategies in
order and return the first success, failing only if all three fail — but in
tess.rs the third strategy runs at the *doubled* tolerance 0.5 with the
non-zero fill rule, and in extrude_glyph.rs the second strategy runs at 0.5
(five times lyon's 0.1 default, not doubled) while the third returns to the
0.1 default with the non-zero fill rule. -/
theorem try_tessellation_fallbacks_order (tess : FillOpts → Option TessBuffers)
    (tessE : FillOpts → Option (TessBuffers × TessBuffers)) :
    (try_tessellation_with_fallbacks tess =
      ((tess ⟨1/4, .EvenOdd⟩).orElse fun _ =>
        ((tess ⟨1/2, .EvenOdd⟩).orElse fun _ => tess ⟨1/2, .NonZero⟩))) ∧
    (try_tessellation_with_fallbacks tess = none ↔
      tess ⟨1/4, .EvenOdd⟩ = none ∧ tess ⟨1/2, .EvenOdd⟩ = none ∧
      tess ⟨1/2, .NonZero⟩ = none) ∧
    (try_tessellation_with_fallbacks_extrude tessE =
      ((tessE ⟨1/10, .EvenOdd⟩).orElse fun _ =>
        ((tessE ⟨1/2, .EvenOdd⟩).orElse fun _ => tessE ⟨1/10, .NonZero⟩))) ∧
    (try_tessellation_with_fallbacks_extrude tessE = none ↔
      tessE ⟨1/10, .EvenOdd⟩ = none ∧ tessE ⟨1/2, .EvenOdd⟩ = none ∧
      tessE ⟨1/10, .NonZero⟩ = none) := by
  refine ⟨?_, ?_, ?_, ?_⟩
  · rw [try_tessellation_with_fallbacks]
    cases tess ⟨1/4, .EvenOdd⟩ with
    | some g => rfl
    | none =>
      cases tess ⟨1/2, .EvenOdd⟩ with
      | some g => rfl
      | none => rfl
  · rw [try_tessellation_with_fallbacks]
    cases h1 : tess ⟨1/4, .EvenOdd⟩ with
    | some g => simp
    | none =>
      cases h2 : tess ⟨1/2, .EvenOdd⟩ with
      | some g => simp
      | none => simp
  · rw [try_tessellation_with_fallbacks_extrude]
    cases tessE ⟨1/10, .EvenOdd⟩ with
    | some g => rfl
    | none =>
      cases tessE ⟨1/2, .EvenOdd⟩ with
      | some g => rfl
      | none => rfl
  · rw [try_tessellation_with_fallbacks_extrude]
    cases h1 : tessE ⟨1/10, .EvenOdd⟩ with
    | some g => simp
    | none =>
      cases h2 : tessE ⟨1/2, .EvenOdd⟩ with
      | some g => simp
      | none => simp

/-! ## Mesh builder (src/mesh.rs)

The f32 square root feeding further arithmetic (segment lengths in
`resample_contour`, `normalize_or_zero`) is abstracted as an explicit
parameter `sq : ℚ → ℚ`; the claims below depend only on lengths, counts and
indices of the built structures, never on the interpolated coordinates. -/

/-- Zero 3D vector. -/
def v3zero : V3 := ⟨0, 0, 0⟩

/-- Componentwise difference of `V3`. -/
def v3sub (a b : V3) : V3 := ⟨a.x - b.x, a.y - b.y, a.z - b.z⟩

/-- Componentwise sum of `V3`. -/
def v3add (a b : V3) : V3 := ⟨a.x + b.x, a.y + b.y, a.z + b.z⟩

/-- Cross product of `V3`. -/
def v3cross (a b : V3) : V3 :=
  ⟨a.y * b.z - a.z * b.y, a.z * b.x - a.x * b.z, a.x * b.y - a.y * b.x⟩

/-- Squared Euclidean norm of `V3`. -/
def v3normSq (a : V3) : ℚ := a.x * a.x + a.y * a.y + a.z * a.z

/-- glam `normalize_or_zero` with the square root abstracted by `sq`
(zero-length input maps to zero). -/
def normalizeOrZero (sq : ℚ → ℚ) (v : V3) : V3 :=
  if v3normSq v = 0 then v3zero
  else ⟨v.x / sq (v3normSq v), v.y / sq (v3normSq v), v.z / sq (v3normSq v)⟩

/-- The inner search of `resample_contour`: walk the segments accumulating
length; interpolate inside the first segment with
`target ≤ accumulated + length + 1e-6`; `none` when no segment matched
(the source then falls back to the last vertex). -/
def sampleSearch (contour : Contour) (target_distance : ℚ) :
    ℕ → ℚ → List ℚ → Option V2
  | _, _, [] => none
  | seg_idx, accumulated, seg_length :: rest =>
    if target_distance ≤ accumulated + seg_length + 1/1000000 then
      let source_count := contour.vertices.length
      let segment_start := contour.vertices.getD seg_idx vzero
      let segment_end_idx :=
        if contour.is_closed then (seg_idx + 1) % source_count
        else min (seg_idx + 1) (source_count - 1)
      let segment_end := contour.vertices.getD segment_end_idx vzero
      let t := if 1/1000000 < seg_length
               then (target_distance - accumulated) / seg_length else 0
      some (vadd segment_start (vsmul t (vadd segment_end (vsmul (-1) segment_start))))
    else sampleSearch contour target_distance (seg_idx + 1) (accumulated + seg_length) rest

/-- src/mesh.rs `resample_contour`.  A contour already at the target count or
with fewer than 3 vertices is returned unchanged.  Segment lengths use the
cyclic successor for closed contours and skip the last segment for open
ones; a degenerate total length duplicates the first vertex.  The resampled
contour places one vertex per target index at distance
`k * target_segment_length` along the perimeter (exact rational arithmetic
stands in for the f32 accumulation). -/
def resample_contour (sq : ℚ → ℚ) (contour : Contour) (target_count : ℕ) : Contour :=
  if contour.vertices.length = target_count ∨ contour.vertices.length < 3 then contour
  else
    let source_count := contour.vertices.length
    let segIdx := if contour.is_closed then List.range source_count
                  else List.range (source_count - 1)
    let segment_lengths := segIdx.map fun i =>
      sq (dist2 (contour.vertices.getD i vzero)
        (contour.vertices.getD ((i + 1) % source_count) vzero))
    let total_length := segment_lengths.sum
    if total_length < 1/1000000 then
      ⟨List.replicate target_count (contour.vertices.getD 0 vzero), contour.is_closed⟩
    else
      let target_segment_length := total_length / (target_count : ℚ)
      ⟨(List.range target_count).map (fun k : ℕ =>
          (sampleSearch contour ((k : ℚ) * target_segment_length) 0 0
            segment_lengths).getD
            (contour.vertices.getD (source_count - 1) vzero)),
        contour.is_closed⟩

/-- src/mesh.rs `determine_optimal_vertex_count`: the maximum ring vertex
count clamped to [4, 256] (4 for an empty ring list).  The fold with 0
equals the source's `max().unwrap_or(4)` because the list is nonempty in
the else branch. -/
def determine_optimal_vertex_count (rings : List Contour) : ℕ :=
  if rings.isEmpty then 4
  else
    let max_count := (rings.map fun r => r.vertices.length).foldr max 0
    min (max max_count 4) 256

/-- Complete beveled glyph geometry (src/mesh.rs `BeveledGlyphGeometry`). -/
structure BeveledGlyphGeometry where
  vertices : List V3
  indices : List ℕ
  normals : List V3
  uvs : List V2
deriving DecidableEq, Repr

/-- Z level of ring `ring_idx` out of `numRings` in
`build_improved_bevel_ring_geometry`: the last ring (the appended back copy
of the outer contour) sits at full depth, the others at
`ring_idx / (bevel_ring_count - 1)` of the depth where
`bevel_ring_count = numRings - 1`.  `numRings` is at least 3 on every call
(outer, inner and the appended back ring), so the divisor is at least 1. -/
def ringZOffset (numRings ring_idx : ℕ) (extrusion_depth : ℚ) : ℚ :=
  if numRings ≤ 1 then 0
  else if ring_idx = numRings - 1 then extrusion_depth
  else ((ring_idx : ℚ) / ((numRings - 2 : ℕ) : ℚ)) * extrusion_depth

/-- Vertices of one ring at a fixed Z level. -/
def ringVertices (z : ℚ) (c : Contour) : List V3 :=
  c.vertices.map fun v => ⟨v.x, v.y, z⟩

/-- All ring vertices appended in ring order at their Z levels. -/
def appendedRingVertices (rings : List Contour) (depth : ℚ) : List V3 :=
  (rings.enum.map fun p => ringVertices (ringZOffset rings.length p.1 depth) p.2).join

/-- Ring start offsets: each ring starts where the previous vertices end
(the source records `vertices.len()` before pushing each ring). -/
def ringOffsets (start : ℕ) : List Contour → List ℕ
  | [] => []
  | r :: rest => start :: ringOffsets (start + r.vertices.length) rest

/-- The two triangles per vertex index bridging one pair of consecutive
rings (closed rings wrap around; open rings skip the last edge). -/
def quadIndices (isClosed : Bool) (current_offset next_offset vertex_count : ℕ) :
    List ℕ :=
  ((List.range vertex_count).map fun i =>
    if isClosed then
      let next_i := (i + 1) % vertex_count
      [current_offset + i, current_offset + next_i, next_offset + next_i,
       current_offset + i, next_offset + next_i, next_offset + i]
    else if i = vertex_count - 1 then []
    else
      [current_offset + i, current_offset + (i + 1), next_offset + (i + 1),
       current_offset + i, next_offset + (i + 1), next_offset + i]).join

/-- The bridging loop of `build_improved_bevel_ring_geometry`: for each pair
of consecutive rings, `assert_eq!` their vertex counts (`none` models the
panic) and emit the side quads; the next ring starts at
`start + current ring count` because rings were pushed contiguously. -/
def bridgeRings (start : ℕ) : List Contour → Option (List ℕ)
  | r1 :: r2 :: rest =>
    if r1.vertices.length = r2.vertices.length then
      (bridgeRings (start + r1.vertices.length) (r2 :: rest)).map
        fun tail =>
          quadIndices r1.is_closed start (start + r1.vertices.length)
            r1.vertices.length ++ tail
    else none
  | _ => some []

/-- src/mesh.rs `add_back_cap_triangulation`: fan triangulation with reversed
winding; triangle `i` (for `i` in `1..vertex_count-1`) is
`(offset, offset+i+1, offset+i)`. -/
def add_back_cap_triangulation (offset vertex_count : ℕ) : List ℕ :=
  if vertex_count < 3 then []
  else ((List.range (vertex_count - 2)).map fun j =>
    [offset, offset + j + 2, offset + j + 1]).join

/-- The ordered ring sequence used by `build_improved_bevel_ring_geometry`:
outer contour, intermediate rings, inner contour, and the appended back copy
of the outer contour. -/
def allRingRefs (bevel_ring : BevelRings) : List Contour :=
  bevel_ring.outer_contour ::
    (bevel_ring.rings ++ [bevel_ring.inner_contour, bevel_ring.outer_contour])

/-- src/mesh.rs `build_improved_bevel_ring_geometry`: build the ring
sequence outer → intermediates → inner → outer-back, resample every ring to
the optimal count, push ring vertices at their Z levels, bridge consecutive
rings (panicking — `none` — on a vertex-count mismatch) and fan-triangulate
the back cap of the last ring using `target_vertex_count`. -/
def build_improved_bevel_ring_geometry (sq : ℚ → ℚ) (vertices : List V3)
    (indices : List ℕ) (bevel_ring : BevelRings) (extrusion_depth : ℚ) :
    Option (List V3 × List ℕ) :=
  let all_rings_refs := allRingRefs bevel_ring
  let target_vertex_count := determine_optimal_vertex_count all_rings_refs
  let resampled_rings := all_rings_refs.map fun r =>
    resample_contour sq r target_vertex_count
  match bridgeRings vertices.length resampled_rings with
  | none => none
  | some bridged =>
    let last_offset := (ringOffsets vertices.length resampled_rings).getLastD 0
    some (vertices ++ appendedRingVertices resampled_rings extrusion_depth,
      indices ++ bridged ++ add_back_cap_triangulation last_offset target_vertex_count)

/-- Triangles of an index list, as `indices.chunks(3)` with the incomplete
final chunk dropped (the source guards each chunk with `len == 3`). -/
def chunks3 : List ℕ → List (ℕ × ℕ × ℕ)
  | a :: b :: c :: rest => (a, b, c) :: chunks3 rest
  | _ => []

/-- src/mesh.rs `generate_smooth_normals`: accumulate each triangle's face
normal at its three vertices (skipping out-of-range triangles), then
normalize every accumulator. -/
def generate_smooth_normals (sq : ℚ → ℚ) (vertices : List V3)
    (indices : List ℕ) : List V3 :=
  let acc := (chunks3 indices).foldl
    (fun ns t =>
      if t.1 < vertices.length ∧ t.2.1 < vertices.length ∧ t.2.2 < vertices.length
      then
        let v0 := vertices.getD t.1 v3zero
        let v1 := vertices.getD t.2.1 v3zero
        let v2 := vertices.getD t.2.2 v3zero
        let fn := v3cross (v3sub v1 v0) (v3sub v2 v0)
        let ns1 := ns.set t.1 (v3add (ns.getD t.1 v3zero) fn)
        let ns2 := ns1.set t.2.1 (v3add (ns1.getD t.2.1 v3zero) fn)
        ns2.set t.2.2 (v3add (ns2.getD t.2.2 v3zero) fn)
      else ns)
    (List.replicate vertices.length v3zero)
  acc.map (normalizeOrZero sq)

/-- src/mesh.rs `generate_uvs_for_beveled_mesh`. -/
def generate_uvs_for_beveled_mesh (vertices : List V3) (extrusion_depth : ℚ) :
    List V2 :=
  vertices.map fun vertex =>
    ⟨(vertex.x + 50) / 100,
     if 0 < extrusion_depth then vertex.z / extrusion_depth
     else (vertex.y + 50) / 100⟩

/-- The per-`BevelRings` loop of `build_beveled_mesh`. -/
def buildBevelGeomFold (sq : ℚ → ℚ) (depth : ℚ) :
    List BevelRings → List V3 × List ℕ → Option (List V3 × List ℕ)
  | [], st => some st
  | br :: rest, st =>
    match build_improved_bevel_ring_geometry sq st.1 st.2 br depth with
    | none => none
    | some st2 => buildBevelGeomFold sq depth rest st2

/-- src/mesh.rs `build_beveled_mesh`: start from the front cap vertices and
indices (the u16 cap indices are widened unchanged), append the bevel
geometry of every `BevelRings`, then generate normals and UVs.  `none`
models the assertion panic inside the ring bridging. -/
def build_beveled_mesh (sq : ℚ → ℚ) (front_cap_vertices : List V3)
    (front_cap_indices : List ℕ) (bevel_rings : List BevelRings)
    (extrusion_depth : ℚ) : Option BeveledGlyphGeometry :=
  (buildBevelGeomFold sq extrusion_depth bevel_rings
      (front_cap_vertices, front_cap_indices)).map fun st =>
    ⟨st.1, st.2, generate_smooth_normals sq st.1 st.2,
     generate_uvs_for_beveled_mesh st.1 extrusion_depth⟩

/-! ## Ring-only mesh path (src/mesh.rs `build_mesh_from_bevel_rings`) -/

/-- Z level of ring `ring_idx` of `numRings` in
`build_bevel_ring_geometry_with_boundaries`: linear interpolation
`ring_idx / (numRings - 1)` of the depth (a single ring sits at 0). -/
def ringZOffsetB (numRings ring_idx : ℕ) (extrusion_depth : ℚ) : ℚ :=
  if numRings = 1 then 0
  else ((ring_idx : ℚ) / ((numRings - 1 : ℕ) : ℚ)) * extrusion_depth

/-- All ring vertices appended in order at the linear Z levels. -/
def appendedRingVerticesB (rings : List Contour) (depth : ℚ) : List V3 :=
  (rings.enum.map fun p => ringVertices (ringZOffsetB rings.length p.1 depth) p.2).join

/-- The bridging loop of `build_bevel_ring_geometry_with_boundaries`: a pair
of consecutive rings with mismatched vertex counts is *skipped* (no side
triangles) instead of resampled or asserted. -/
def bridgeRingsSkip (start : ℕ) : List Contour → List ℕ
  | r1 :: r2 :: rest =>
    (if r1.vertices.length = r2.vertices.length
     then quadIndices r1.is_closed start (start + r1.vertices.length)
       r1.vertices.length
     else []) ++ bridgeRingsSkip (start + r1.vertices.length) (r2 :: rest)
  | _ => []

/-- src/mesh.rs `build_bevel_ring_geometry_with_boundaries`: push the rings
outer → intermediates → inner at linearly interpolated Z levels — with *no*
resampling — bridge only the consecutive pairs whose vertex counts match,
and return the front/back boundary vertex index ranges.  The source stores
ring offsets relative to `base_vertex_offset` and adds the base back
wherever they are used; since the base always equals the vertex count at
entry, the absolute offsets used here are the same values. -/
def build_bevel_ring_geometry_with_boundaries (vertices : List V3)
    (indices : List ℕ) (bevel_ring : BevelRings) (extrusion_depth : ℚ)
    (base_vertex_offset : ℕ) :
    Except MeshTextError ((List V3 × List ℕ) × (List ℕ × List ℕ)) :=
  let all_rings := bevel_ring.outer_contour ::
    (bevel_ring.rings ++ [bevel_ring.inner_contour])
  if all_rings.length < 2 then .error .InvalidInput
  else
    let offs := ringOffsets vertices.length all_rings
    let front_boundary := (List.range
      (all_rings.headD ⟨[], true⟩).vertices.length).map fun k => offs.headD 0 + k
    let back_boundary := (List.range
      ((all_rings.getLastD ⟨[], true⟩).vertices.length)).map fun k =>
        offs.getLastD 0 + k
    .ok ((vertices ++ appendedRingVerticesB all_rings extrusion_depth,
          indices ++ bridgeRingsSkip vertices.length all_rings),
         (front_boundary, back_boundary))

/-- Geometry for a tessellated cap (src/mesh.rs `CapGeometry`; the u16
indices are modelled as ℕ). -/
structure CapGeometry where
  vertices : List V3
  indices : List ℕ
deriving DecidableEq, Repr

/-- src/mesh.rs `calculate_signed_area` (shoelace formula, half the signed
doubled area; 0 for fewer than 3 vertices). -/
def calculate_signed_area (vertices : List V2) : ℚ :=
  if vertices.length < 3 then 0
  else
    (((List.range vertices.length).map fun i =>
      let j := (i + 1) % vertices.length
      (vertices.getD i vzero).x * (vertices.getD j vzero).y -
        (vertices.getD j vzero).x * (vertices.getD i vzero).y).sum) / 2

/-- Input handed to the lyon cap tessellator: the outer contours (original
winding), the hole contours (the code reverses their winding when building
the path), the fill options and the Z level of the produced vertices. -/
structure CapTessInput where
  outer : List Contour
  holes : List Contour
  options : FillOpts
  z : ℚ

/-- src/mesh.rs `tessellate_contours_as_face_with_holes`: classify contours
by signed area (dropping those below 3 vertices), fall back to treating all
contours as outer when none classifies as outer, fail with `InvalidContour`
if a path contour has fewer than 3 vertices, then tessellate through the
oracle at tolerance 0.25, retrying once at the fallback tolerance 0.5, with
the even-odd fill rule. -/
def tessellate_contours_as_face_with_holes
    (capTess : CapTessInput → Option CapGeometry)
    (contours : List Contour) (z_offset : ℚ) : Except MeshTextError CapGeometry :=
  if contours.isEmpty then .error .InvalidInput
  else
    let classified := contours.filter fun c => decide (3 ≤ c.vertices.length)
    let outer0 := classified.filter fun c => decide (0 < calculate_signed_area c.vertices)
    let holes0 := classified.filter fun c => ¬ decide (0 < calculate_signed_area c.vertices)
    let outer_contours := if outer0.isEmpty then contours else outer0
    let hole_contours := if outer0.isEmpty then [] else holes0
    if (outer_contours ++ hole_contours).any (fun c => decide (c.vertices.length < 3))
    then .error .InvalidContour
    else
      match capTess ⟨outer_contours, hole_contours, ⟨1/4, .EvenOdd⟩, z_offset⟩ with
      | some geo => .ok geo
      | none =>
        match capTess ⟨outer_contours, hole_contours, ⟨1/2, .EvenOdd⟩, z_offset⟩ with
        | some geo => .ok geo
        | none => .error .TessellationFailed

/-- src/mesh.rs `tessellate_cap_interior_and_connect_to_boundary`: despite
its name and parameters, the source appends the tessellated cap geometry
as-is — `boundary_vertices`, `contours` and `z_offset` are accepted and not
used (the spec flags this as a latent seam bug). -/
def tessellate_cap_interior_and_connect_to_boundary (vertices : List V3)
    (indices : List ℕ) (cap_geometry : CapGeometry)
    (boundary_vertices : List ℕ) (contours : List Contour) (z_offset : ℚ)
    (reverse_winding : Bool) : List V3 × List ℕ :=
  let vertex_offset := vertices.length
  (vertices ++ cap_geometry.vertices,
   indices ++ ((chunks3 cap_geometry.indices).map fun t =>
      if reverse_winding
      then [vertex_offset + t.1, vertex_offset + t.2.2, vertex_offset + t.2.1]
      else [vertex_offset + t.1, vertex_offset + t.2.1, vertex_offset + t.2.2]).join)

/-- src/mesh.rs `tessellate_and_connect_caps`: tessellate the front cap from
the outer contours at z = 0 and the back cap from the inner contours at
z = depth, appending each to the mesh (back cap with reversed winding). -/
def tessellate_and_connect_caps (capTess : CapTessInput → Option CapGeometry)
    (vertices : List V3) (indices : List ℕ) (bevel_rings : List BevelRings)
    (front_boundary back_boundary : List ℕ) (extrusion_depth : ℚ) :
    Except MeshTextError (List V3 × List ℕ) :=
  let outer_contours := bevel_rings.map fun r => r.outer_contour
  let inner_contours := bevel_rings.map fun r => r.inner_contour
  match tessellate_contours_as_face_with_holes capTess outer_contours 0 with
  | .error e => .error e
  | .ok front_cap =>
    let st1 := tessellate_cap_interior_and_connect_to_boundary vertices indices
      front_cap front_boundary outer_contours 0 false
    match tessellate_contours_as_face_with_holes capTess inner_contours
        extrusion_depth with
    | .error e => .error e
    | .ok back_cap =>
      .ok (tessellate_cap_interior_and_connect_to_boundary st1.1 st1.2
        back_cap back_boundary inner_contours extrusion_depth true)

/-- The per-`BevelRings` loop of `build_mesh_from_bevel_rings`, accumulating
geometry and the boundary index lists. -/
def buildRingsWithBoundaries (depth : ℚ) :
    List BevelRings → List V3 × List ℕ × List ℕ × List ℕ →
    Except MeshTextError (List V3 × List ℕ × List ℕ × List ℕ)
  | [], st => .ok st
  | br :: rest, (verts, inds, fb, bb) =>
    match build_bevel_ring_geometry_with_boundaries verts inds br depth
        verts.length with
    | .error e => .error e
    | .ok ((verts2, inds2), (f2, b2)) =>
      buildRingsWithBoundaries depth rest (verts2, inds2, fb ++ f2, bb ++ b2)

/-- src/mesh.rs `build_mesh_from_bevel_rings`: build all ring geometry with
boundary tracking, tessellate and append both caps, then generate normals
and UVs. -/
def build_mesh_from_bevel_rings (sq : ℚ → ℚ)
    (capTess : CapTessInput → Option CapGeometry)
    (bevel_rings : List BevelRings) (extrusion_depth : ℚ) :
    Except MeshTextError BeveledGlyphGeometry :=
  match buildRingsWithBoundaries extrusion_depth bevel_rings ([], [], [], []) with
  | .error e => .error e
  | .ok (verts, inds, fb, bb) =>
    match tessellate_and_connect_caps capTess verts inds bevel_rings fb bb
        extrusion_depth with
    | .error e => .error e
    | .ok (verts2, inds2) =>
      .ok ⟨verts2, inds2, generate_smooth_normals sq verts2 inds2,
        generate_uvs_for_beveled_mesh verts2 extrusion_depth⟩

/-! ## Structural lemmas for the mesh builder -/

/-- Resampling a ring with at least 3 vertices always yields exactly the
target count (unchanged rings already have it). -/
theorem resample_contour_length (sq : ℚ → ℚ) (c : Contour) (t : ℕ)
    (h : 3 ≤ c.vertices.length) :
    (resample_contour sq c t).vertices.length = t := by
  rw [resample_contour]
  by_cases h1 : c.vertices.length = t ∨ c.vertices.length < 3
  · rw [if_pos h1]
    rcases h1 with h1 | h1
    · exact h1
    · omega
  · rw [if_neg h1]
    dsimp only
    split <;> split <;>
      simp only [List.length_replicate, List.length_map, List.length_range]

/-- The optimal vertex count is at least 4. -/
theorem determine_optimal_vertex_count_ge_4 (rings : List Contour) :
    4 ≤ determine_optimal_vertex_count rings := by
  rw [determine_optimal_vertex_count]
  split_ifs
  · exact le_refl 4
  · exact le_min (le_max_right _ _) (by norm_num)

/-- Length of the joined ring vertex blocks (generic in the Z function). -/
theorem join_ringVertices_length (rings : List Contour) (zf : ℕ → ℚ) :
    ((rings.enum.map fun p => ringVertices (zf p.1) p.2).join).length =
      (rings.map fun r => r.vertices.length).sum := by
  rw [List.length_join, List.map_map]
  have h1 : (List.length ∘ fun p : ℕ × Contour => ringVertices (zf p.1) p.2) =
      fun p : ℕ × Contour => p.2.vertices.length := by
    funext p
    simp [ringVertices]
  rw [h1]
  have h2 : (rings.enum.map fun p : ℕ × Contour => p.2.vertices.length) =
      rings.map fun r => r.vertices.length := by
    have h3 : (fun p : ℕ × Contour => p.2.vertices.length) =
        (fun r : Contour => r.vertices.length) ∘ Prod.snd := rfl
    rw [h3, ← List.map_map, List.enum_map_snd]
  rw [h2]

/-- Length of the appended ring vertices in the improved path. -/
theorem appendedRingVertices_length (rings : List Contour) (depth : ℚ) :
    (appendedRingVertices rings depth).length =
      (rings.map fun r => r.vertices.length).sum := by
  rw [appendedRingVertices]
  exact join_ringVertices_length rings fun i => ringZOffset rings.length i depth

/-- Length of the appended ring vertices in the boundaries path. -/
theorem appendedRingVerticesB_length (rings : List Contour) (depth : ℚ) :
    (appendedRingVerticesB rings depth).length =
      (rings.map fun r => r.vertices.length).sum := by
  rw [appendedRingVerticesB]
  exact join_ringVertices_length rings fun i => ringZOffsetB rings.length i depth

/-- Every index in a quad block is below either ring's end. -/
theorem quadIndices_lt (isClosed : Bool) (o1 o2 cnt L : ℕ)
    (h1 : o1 + cnt ≤ L) (h2 : o2 + cnt ≤ L) :
    ∀ x ∈ quadIndices isClosed o1 o2 cnt, x < L := by
  intro x hx
  simp only [quadIndices, List.mem_join, List.mem_map] at hx
  rcases hx with ⟨block, ⟨i, hi, hblock⟩, hxblock⟩
  rw [List.mem_range] at hi
  rw [← hblock] at hxblock
  have hcnt : 0 < cnt := Nat.lt_of_le_of_lt (Nat.zero_le _) hi
  by_cases hc : isClosed = true
  · have hni : (i + 1) % cnt < cnt := Nat.mod_lt _ hcnt
    simp only [hc, if_true, List.mem_cons, List.not_mem_nil, or_false] at hxblock
    rcases hxblock with h | h | h | h | h | h <;> omega
  · have hc' : isClosed = false := by
      cases isClosed
      · rfl
      · exact absurd rfl hc
    by_cases hlast : i = cnt - 1
    · simp [hc', hlast] at hxblock
    · simp only [hc', Bool.false_eq_true, if_false, hlast, List.mem_cons,
        List.not_mem_nil, or_false] at hxblock
      have : i + 1 < cnt := by omega
      rcases hxblock with h | h | h | h | h | h <;> omega

/-- A joined list of blocks whose lengths are all divisible by 3 has length
divisible by 3. -/
theorem join_length_mod3 (L : List (List ℕ)) (h : ∀ b ∈ L, b.length % 3 = 0) :
    L.join.length % 3 = 0 := by
  induction L with
  | nil => simp
  | cons b rest ih =>
    have hb := h b (by simp)
    have hr : rest.flatten.length % 3 = 0 := ih fun x hx => h x (by simp [hx])
    simp only [List.join_cons, List.length_append]
    omega

/-- Quad blocks come in multiples of 3 indices. -/
theorem quadIndices_length_mod3 (isClosed : Bool) (o1 o2 cnt : ℕ) :
    (quadIndices isClosed o1 o2 cnt).length % 3 = 0 := by
  apply join_length_mod3
  intro b hb
  simp only [quadIndices, List.mem_map] at hb
  rcases hb with ⟨i, _, hblock⟩
  rw [← hblock]
  split_ifs <;> simp

/-- Back-cap fan indices stay below `offset + vertex_count`. -/
theorem add_back_cap_triangulation_lt (offset vertex_count : ℕ) :
    ∀ x ∈ add_back_cap_triangulation offset vertex_count,
      x < offset + vertex_count := by
  intro x hx
  rw [add_back_cap_triangulation] at hx
  split_ifs at hx with h3
  · simp at hx
  · simp only [List.mem_join, List.mem_map] at hx
    rcases hx with ⟨block, ⟨j, hj, hblock⟩, hxblock⟩
    rw [List.mem_range] at hj
    rw [← hblock] at hxblock
    simp only [List.mem_cons, List.not_mem_nil, or_false] at hxblock
    rcases hxblock with h | h | h <;> omega

/-- Back-cap fans come in multiples of 3 indices. -/
theorem add_back_cap_triangulation_length_mod3 (offset vertex_count : ℕ) :
    (add_back_cap_triangulation offset vertex_count).length % 3 = 0 := by
  rw [add_back_cap_triangulation]
  split_ifs
  · rfl
  · apply join_length_mod3
    intro b hb
    simp only [List.mem_map] at hb
    rcases hb with ⟨j, _, hblock⟩
    rw [← hblock]
    simp

/-- `getLastD` of a nonempty list does not depend on the default. -/
theorem getLastD_irrel {α : Type} :
    ∀ (l : List α), l ≠ [] → ∀ (d1 d2 : α), l.getLastD d1 = l.getLastD d2 := by
  intro l
  induction l with
  | nil => intro h; exact absurd rfl h
  | cons a rest ih =>
    intro _ d1 d2
    rw [List.getLastD_cons, List.getLastD_cons]

/-- `getLastD` of a nonempty list is a member. -/
theorem getLastD_mem {α : Type} :
    ∀ (l : List α), l ≠ [] → ∀ (d : α), l.getLastD d ∈ l := by
  intro l
  induction l with
  | nil => intro h; exact absurd rfl h
  | cons a rest ih =>
    intro _ d
    rw [List.getLastD_cons]
    cases hr : rest with
    | nil => simp [List.getLastD]
    | cons b rest2 =>
      subst hr
      exact List.mem_cons_of_mem _ (ih (by simp) a)

/-- `ringOffsets` of a nonempty ring list is nonempty. -/
theorem ringOffsets_ne_nil (start : ℕ) (rings : List Contour) (h : rings ≠ []) :
    ringOffsets start rings ≠ [] := by
  cases rings with
  | nil => exact absurd rfl h
  | cons r rest => rw [ringOffsets]; simp

/-- The last ring offset plus the last ring's vertex count is the total
vertex count. -/
theorem ringOffsets_getLastD (rings : List Contour) :
    rings ≠ [] → ∀ start : ℕ,
      (ringOffsets start rings).getLastD 0 +
        (rings.getLastD ⟨[], true⟩).vertices.length =
        start + (rings.map fun r => r.vertices.length).sum := by
  induction rings with
  | nil => intro h; exact absurd rfl h
  | cons r rest ih =>
    intro _ start
    cases hr : rest with
    | nil =>
      simp [ringOffsets, List.getLastD]
    | cons r2 rest2 =>
      subst hr
      rw [ringOffsets, List.getLastD_cons, List.getLastD_cons]
      rw [getLastD_irrel _ (ringOffsets_ne_nil _ _ (by simp)) start 0]
      rw [getLastD_irrel (r2 :: rest2) (by simp) r ⟨[], true⟩]
      have hstep := ih (by simp) (start + r.vertices.length)
      simp only [List.map_cons, List.sum_cons] at hstep ⊢
      omega

/-- The bridging loop of the improved path on rings of one common vertex
count: it succeeds, every produced index is below the total appended vertex
count, and the index count is divisible by 3. -/
theorem bridgeRings_spec (t : ℕ) :
    ∀ (rings : List Contour) (start : ℕ),
      (∀ r ∈ rings, r.vertices.length = t) →
      ∃ out, bridgeRings start rings = some out ∧
        (∀ x ∈ out, x < start + (rings.map fun r => r.vertices.length).sum) ∧
        out.length % 3 = 0 := by
  intro rings
  induction rings with
  | nil => intro start _; exact ⟨[], rfl, by simp, rfl⟩
  | cons r1 rest ih =>
    intro start hall
    cases rest with
    | nil => exact ⟨[], rfl, by simp, rfl⟩
    | cons r2 rest2 =>
      have h1 : r1.vertices.length = t := hall r1 (by simp)
      have h2 : r2.vertices.length = t := hall r2 (by simp)
      obtain ⟨tail, htail, hbound, hmod⟩ :=
        ih (start + r1.vertices.length) fun r hr => hall r (List.mem_cons_of_mem _ hr)
      refine ⟨quadIndices r1.is_closed start (start + r1.vertices.length)
        r1.vertices.length ++ tail, ?_, ?_, ?_⟩
      · rw [bridgeRings, if_pos (h1.trans h2.symm), htail]
        rfl
      · intro x hx
        rcases List.mem_append.mp hx with hq | ht2
        · have hb1 : start + r1.vertices.length ≤
              start + ((r1 :: r2 :: rest2).map fun r => r.vertices.length).sum := by
            simp only [List.map_cons, List.sum_cons]
            omega
          have hb2 : (start + r1.vertices.length) + r1.vertices.length ≤
              start + ((r1 :: r2 :: rest2).map fun r => r.vertices.length).sum := by
            simp only [List.map_cons, List.sum_cons]
            omega
          exact quadIndices_lt r1.is_closed start (start + r1.vertices.length)
            r1.vertices.length _ hb1 hb2 x hq
        · have := hbound x ht2
          simp only [List.map_cons, List.sum_cons] at this ⊢
          omega
      · rw [List.length_append]
        have := quadIndices_length_mod3 r1.is_closed start
          (start + r1.vertices.length) r1.vertices.length
        omega

/-- Every ring in the improved path's reference list has at least 3 vertices
when the outer contour, intermediate rings and inner contour do. -/
theorem allRingRefs_ge_3 (br : BevelRings)
    (hr : ∀ c ∈ br.outer_contour :: (br.rings ++ [br.inner_contour]),
      3 ≤ c.vertices.length) :
    ∀ c ∈ allRingRefs br, 3 ≤ c.vertices.length := by
  intro c hc
  rw [allRingRefs] at hc
  rcases List.mem_cons.mp hc with h | hc
  · exact h ▸ hr _ (by simp)
  rcases List.mem_append.mp hc with h | h
  · exact hr _ (by simp [h])
  · rcases List.mem_cons.mp h with h | h
    · exact h ▸ hr _ (by simp)
    · rcases List.mem_cons.mp h with h | h
      · exact h ▸ hr _ (by simp)
      · simp at h

/-- One step of the bevel-geometry loop: on rings with at least 3 vertices
each it succeeds, preserves index-in-range and divisibility-by-3. -/
theorem build_improved_step (sq : ℚ → ℚ) (verts : List V3) (inds : List ℕ)
    (br : BevelRings) (depth : ℚ)
    (hr : ∀ c ∈ br.outer_contour :: (br.rings ++ [br.inner_contour]),
      3 ≤ c.vertices.length) :
    ∃ verts2 inds2,
      build_improved_bevel_ring_geometry sq verts inds br depth =
        some (verts2, inds2) ∧
      ((∀ x ∈ inds, x < verts.length) → ∀ x ∈ inds2, x < verts2.length) ∧
      (inds.length % 3 = 0 → inds2.length % 3 = 0) := by
  have hrefs := allRingRefs_ge_3 br hr
  set T := determine_optimal_vertex_count (allRingRefs br) with hT
  set RS := (allRingRefs br).map (fun r => resample_contour sq r T) with hRS
  have hcounts : ∀ r ∈ RS, r.vertices.length = T := by
    intro r hrm
    rw [hRS] at hrm
    rcases List.mem_map.mp hrm with ⟨c, hc, hceq⟩
    rw [← hceq]
    exact resample_contour_length sq c T (hrefs c hc)
  obtain ⟨bridged, hbr, hbound, hmod3⟩ := bridgeRings_spec T RS verts.length hcounts
  have hrsne : RS ≠ [] := by
    rw [hRS, allRingRefs]
    simp
  have hlast := ringOffsets_getLastD RS hrsne verts.length
  have hlastcnt : (RS.getLastD ⟨[], true⟩).vertices.length = T :=
    hcounts _ (getLastD_mem RS hrsne ⟨[], true⟩)
  have happ : (appendedRingVertices RS depth).length =
      (RS.map fun r => r.vertices.length).sum := appendedRingVertices_length RS depth
  refine ⟨verts ++ appendedRingVertices RS depth,
    inds ++ bridged ++ add_back_cap_triangulation
      ((ringOffsets verts.length RS).getLastD 0) T, ?_, ?_, ?_⟩
  · rw [build_improved_bevel_ring_geometry]
    dsimp only
    rw [← hT, ← hRS, hbr]
  · intro hold x hx
    rw [List.length_append, happ]
    rcases List.mem_append.mp hx with h | h
    · rcases List.mem_append.mp h with h2 | h2
      · have := hold x h2
        omega
      · have := hbound x h2
        omega
    · have := add_back_cap_triangulation_lt
        ((ringOffsets verts.length RS).getLastD 0) T x h
      omega
  · intro h0
    simp only [List.length_append]
    have hc3 := add_back_cap_triangulation_length_mod3
      ((ringOffsets verts.length RS).getLastD 0) T
    omega

/-- The whole bevel-geometry loop preserves the index invariants and never
panics when every contour has at least 3 vertices. -/
theorem buildBevelGeomFold_spec (sq : ℚ → ℚ) (depth : ℚ) :
    ∀ (brs : List BevelRings) (st : List V3 × List ℕ),
      (∀ br ∈ brs, ∀ c ∈ br.outer_contour :: (br.rings ++ [br.inner_contour]),
        3 ≤ c.vertices.length) →
      ∃ st2, buildBevelGeomFold sq depth brs st = some st2 ∧
        ((∀ x ∈ st.2, x < st.1.length) → ∀ x ∈ st2.2, x < st2.1.length) ∧
        (st.2.length % 3 = 0 → st2.2.length % 3 = 0) := by
  intro brs
  induction brs with
  | nil => intro st _; exact ⟨st, rfl, fun h => h, fun h => h⟩
  | cons br rest ih =>
    intro st hall
    obtain ⟨v2, i2, hbuild, hbd, hmd⟩ :=
      build_improved_step sq st.1 st.2 br depth (hall br (by simp))
    obtain ⟨st2, hfold, hbd2, hmd2⟩ := ih (v2, i2) fun b hb => hall b (by simp [hb])
    refine ⟨st2, ?_, ?_, ?_⟩
    · rw [buildBevelGeomFold, hbuild]
      exact hfold
    · intro h
      exact hbd2 (hbd h)
    · intro h
      exact hmd2 (hmd h)

/-! ## C10 -/

/-- C10 (confirmed): `build_beveled_mesh` never panics — the internal
equal-vertex-count assertion between consecutive bridged rings always holds —
when every contour in every input `BevelRings` has at least 3 vertices,
because resampling then gives all rings of a subcontour the common target
count. -/
theorem build_beveled_mesh_no_panic (sq : ℚ → ℚ) (front_cap_vertices : List V3)
    (front_cap_indices : List ℕ) (bevel_rings : List BevelRings)
    (extrusion_depth : ℚ)
    (h : ∀ br ∈ bevel_rings,
      ∀ c ∈ br.outer_contour :: (br.rings ++ [br.inner_contour]),
        3 ≤ c.vertices.length) :
    (build_beveled_mesh sq front_cap_vertices front_cap_indices bevel_rings
      extrusion_depth).isSome = true := by
  obtain ⟨st2, hfold, _, _⟩ := buildBevelGeomFold_spec sq extrusion_depth
    bevel_rings (front_cap_vertices, front_cap_indices) h
  rw [build_beveled_mesh, hfold]
  rfl

/-- C10 witness: a single `BevelRings` made of triangles builds without
panicking. -/
theorem build_beveled_mesh_no_panic_witness :
    (build_beveled_mesh (fun _ => 0) [] []
      [⟨⟨[⟨0, 0⟩, ⟨4, 0⟩, ⟨0, 4⟩], true⟩, ⟨[⟨1, 1⟩, ⟨2, 1⟩, ⟨1, 2⟩], true⟩, []⟩]
      1).isSome = true :=
  build_beveled_mesh_no_panic (fun _ => 0) [] []
    [⟨⟨[⟨0, 0⟩, ⟨4, 0⟩, ⟨0, 4⟩], true⟩, ⟨[⟨1, 1⟩, ⟨2, 1⟩, ⟨1, 2⟩], true⟩, []⟩] 1
    (by intro br hbr c hc; fin_cases hbr <;> fin_cases hc <;> simp)

/-- A fold with a length-preserving step preserves the list length. -/
theorem foldl_length_preserved {α : Type} (f : List V3 → α → List V3)
    (l : List α) (ns : List V3)
    (hf : ∀ ns t, (f ns t).length = ns.length) :
    (List.foldl f ns l).length = ns.length := by
  induction l generalizing ns with
  | nil => rfl
  | cons t rest ih => rw [List.foldl_cons, ih, hf]

/-- The smooth normals are one per vertex. -/
theorem generate_smooth_normals_length (sq : ℚ → ℚ) (vertices : List V3)
    (indices : List ℕ) :
    (generate_smooth_normals sq vertices indices).length = vertices.length := by
  rw [generate_smooth_normals]
  dsimp only
  rw [List.length_map, foldl_length_preserved, List.length_replicate]
  intro ns t
  dsimp only
  split
  · simp [List.length_set]
  · rfl

/-- The UVs are one per vertex. -/
theorem generate_uvs_length (vertices : List V3) (extrusion_depth : ℚ) :
    (generate_uvs_for_beveled_mesh vertices extrusion_depth).length =
      vertices.length := by
  rw [generate_uvs_for_beveled_mesh, List.length_map]

/-- Each component of a `chunks3` triple is a member of the index list. -/
theorem chunks3_mem : ∀ (l : List ℕ), ∀ t ∈ chunks3 l,
    t.1 ∈ l ∧ t.2.1 ∈ l ∧ t.2.2 ∈ l
  | [] => by intro t ht; simp [chunks3] at ht
  | [_] => by intro t ht; simp [chunks3] at ht
  | [_, _] => by intro t ht; simp [chunks3] at ht
  | a :: b :: c :: rest => by
    intro t ht
    rw [chunks3] at ht
    rcases List.mem_cons.mp ht with h | h
    · subst h
      exact ⟨by simp, by simp, by simp⟩
    · obtain ⟨h1, h2, h3⟩ := chunks3_mem rest t h
      exact ⟨by simp [h1], by simp [h2], by simp [h3]⟩

/-- Indices produced by the skipping bridge stay below the total ring
vertex count. -/
theorem bridgeRingsSkip_lt :
    ∀ (rings : List Contour) (start : ℕ),
      ∀ x ∈ bridgeRingsSkip start rings,
        x < start + (rings.map fun r => r.vertices.length).sum
  | [] => by intro start x hx; simp [bridgeRingsSkip] at hx
  | [r] => by intro start x hx; simp [bridgeRingsSkip] at hx
  | r1 :: r2 :: rest => by
    intro start x hx
    rw [bridgeRingsSkip] at hx
    rcases List.mem_append.mp hx with h | h
    · by_cases hceq : r1.vertices.length = r2.vertices.length
      · rw [if_pos hceq] at h
        have hb1 : start + r1.vertices.length ≤
            start + ((r1 :: r2 :: rest).map fun r => r.vertices.length).sum := by
          simp only [List.map_cons, List.sum_cons]
          omega
        have hb2 : (start + r1.vertices.length) + r1.vertices.length ≤
            start + ((r1 :: r2 :: rest).map fun r => r.vertices.length).sum := by
          simp only [List.map_cons, List.sum_cons]
          omega
        exact quadIndices_lt r1.is_closed start (start + r1.vertices.length)
          r1.vertices.length _ hb1 hb2 x h
      · rw [if_neg hceq] at h
        simp at h
    · have := bridgeRingsSkip_lt (r2 :: rest) (start + r1.vertices.length) x h
      simp only [List.map_cons, List.sum_cons] at this ⊢
      omega

/-- The skipping bridge emits indices in multiples of 3. -/
theorem bridgeRingsSkip_length_mod3 :
    ∀ (rings : List Contour) (start : ℕ),
      (bridgeRingsSkip start rings).length % 3 = 0
  | [] => by intro start; rfl
  | [r] => by intro start; rfl
  | r1 :: r2 :: rest => by
    intro start
    rw [bridgeRingsSkip, List.length_append]
    have ht := bridgeRingsSkip_length_mod3 (r2 :: rest) (start + r1.vertices.length)
    by_cases hceq : r1.vertices.length = r2.vertices.length
    · rw [if_pos hceq]
      have := quadIndices_length_mod3 r1.is_closed start
        (start + r1.vertices.length) r1.vertices.length
      omega
    · rw [if_neg hceq]
      simpa using ht

/-- One step of the boundaries path: always succeeds (the ring list has the
outer and inner contours, so its length is at least 2) and preserves the
index invariants; no vertex-count hypotheses are needed because mismatched
pairs are skipped. -/
theorem build_bevel_ring_geometry_with_boundaries_spec (verts : List V3)
    (inds : List ℕ) (br : BevelRings) (depth : ℚ) :
    ∃ verts2 inds2 fb bb,
      build_bevel_ring_geometry_with_boundaries verts inds br depth
        verts.length = .ok ((verts2, inds2), (fb, bb)) ∧
      ((∀ x ∈ inds, x < verts.length) → ∀ x ∈ inds2, x < verts2.length) ∧
      (inds.length % 3 = 0 → inds2.length % 3 = 0) := by
  have hlen2 : ¬ (br.outer_contour ::
      (br.rings ++ [br.inner_contour])).length < 2 := by
    simp only [List.length_cons, List.length_append, List.length_cons,
      List.length_nil]
    omega
  rw [build_bevel_ring_geometry_with_boundaries]
  dsimp only
  rw [if_neg hlen2]
  refine ⟨_, _, _, _, rfl, ?_, ?_⟩
  · intro hold x hx
    rw [List.length_append, appendedRingVerticesB_length]
    rcases List.mem_append.mp hx with h | h
    · have := hold x h
      omega
    · have := bridgeRingsSkip_lt (br.outer_contour ::
        (br.rings ++ [br.inner_contour])) verts.length x h
      omega
  · intro h0
    rw [List.length_append]
    have := bridgeRingsSkip_length_mod3 (br.outer_contour ::
      (br.rings ++ [br.inner_contour])) verts.length
    omega

/-- The boundaries-path loop always succeeds and preserves the index
invariants. -/
theorem buildRingsWithBoundaries_spec (depth : ℚ) :
    ∀ (brs : List BevelRings) (st : List V3 × List ℕ × List ℕ × List ℕ),
      ∃ st2, buildRingsWithBoundaries depth brs st = .ok st2 ∧
        ((∀ x ∈ st.2.1, x < st.1.length) → ∀ x ∈ st2.2.1, x < st2.1.length) ∧
        (st.2.1.length % 3 = 0 → st2.2.1.length % 3 = 0) := by
  intro brs
  induction brs with
  | nil => intro st; exact ⟨st, rfl, fun h => h, fun h => h⟩
  | cons br rest ih =>
    intro st
    obtain ⟨verts, inds, fb, bb⟩ := st
    obtain ⟨v2, i2, f2, b2, hstep, hbd, hmd⟩ :=
      build_bevel_ring_geometry_with_boundaries_spec verts inds br depth
    obtain ⟨st2, hfold, hbd2, hmd2⟩ := ih (v2, i2, fb ++ f2, bb ++ b2)
    refine ⟨st2, ?_, ?_, ?_⟩
    · rw [buildRingsWithBoundaries, hstep]
      exact hfold
    · intro h
      exact hbd2 (hbd h)
    · intro h
      exact hmd2 (hmd h)

/-- Appending a tessellated cap preserves the index invariants when the
cap's own indices are in range. -/
theorem tessellate_cap_connect_spec (verts : List V3) (inds : List ℕ)
    (cap : CapGeometry) (bvs : List ℕ) (ctrs : List Contour) (z : ℚ)
    (rev : Bool) (hcap : ∀ i ∈ cap.indices, i < cap.vertices.length) :
    ((∀ x ∈ inds, x < verts.length) →
      ∀ x ∈ (tessellate_cap_interior_and_connect_to_boundary verts inds cap
        bvs ctrs z rev).2,
        x < (tessellate_cap_interior_and_connect_to_boundary verts inds cap
          bvs ctrs z rev).1.length) ∧
    (inds.length % 3 = 0 →
      (tessellate_cap_interior_and_connect_to_boundary verts inds cap
        bvs ctrs z rev).2.length % 3 = 0) := by
  rw [tessellate_cap_interior_and_connect_to_boundary]
  dsimp only
  constructor
  · intro hold x hx
    rw [List.length_append]
    rcases List.mem_append.mp hx with h | h
    · have := hold x h
      omega
    · simp only [List.mem_join, List.mem_map] at h
      rcases h with ⟨block, ⟨t, ht, hblock⟩, hxb⟩
      obtain ⟨h1, h2, h3⟩ := chunks3_mem cap.indices t ht
      have b1 := hcap _ h1
      have b2 := hcap _ h2
      have b3 := hcap _ h3
      rw [← hblock] at hxb
      split_ifs at hxb <;>
        simp only [List.mem_cons, List.not_mem_nil, or_false] at hxb <;>
        rcases hxb with h | h | h <;> omega
  · intro h0
    rw [List.length_append]
    have := join_length_mod3 ((chunks3 cap.indices).map fun t =>
      if rev then [verts.length + t.1, verts.length + t.2.2, verts.length + t.2.1]
      else [verts.length + t.1, verts.length + t.2.1, verts.length + t.2.2])
      (by
        intro b hb
        rcases List.mem_map.mp hb with ⟨t, _, hbe⟩
        rw [← hbe]
        split_ifs <;> simp)
    omega

/-- A successful hole-aware cap tessellation comes from a successful oracle
call. -/
theorem tessellate_contours_ok (capTess : CapTessInput → Option CapGeometry)
    (contours : List Contour) (z : ℚ) (geo : CapGeometry)
    (hok : tessellate_contours_as_face_with_holes capTess contours z = .ok geo) :
    ∃ inp, capTess inp = some geo := by
  rw [tessellate_contours_as_face_with_holes] at hok
  dsimp only at hok
  split_ifs at hok <;>
    first
      | cases hok
      | (split at hok <;>
          first
            | (cases hok
               rename_i heq
               exact ⟨_, heq⟩)
            | (split at hok <;>
                (cases hok
                 all_goals
                   rename_i heq
                   exact ⟨_, heq⟩)))

/-! ## C8 -/

/-- The `ExtrudedMeshGeometry` invariant claimed by the specification:
matching attribute lengths, triangle-aligned index count, and in-range
indices. -/
def geometryInvariant (g : BeveledGlyphGeometry) : Prop :=
  g.vertices.length = g.normals.length ∧
  g.vertices.length = g.uvs.length ∧
  g.indices.length % 3 = 0 ∧
  ∀ i ∈ g.indices, i < g.vertices.length

/-- A `BevelRings` whose contours have only 2 vertices: resampling leaves
them unchanged, so the back-cap fan (sized by the clamped-to-4 target
count) emits out-of-range indices. -/
def twoVertexBevelRing : BevelRings :=
  ⟨⟨[⟨0, 0⟩, ⟨1, 0⟩], true⟩, ⟨[⟨0, 0⟩, ⟨1, 0⟩], true⟩, []⟩

/-- Tessellating and appending both caps preserves the index invariants
when the cap tessellator only produces geometries with in-range indices. -/
theorem tessellate_and_connect_caps_spec
    (capTess : CapTessInput → Option CapGeometry) (verts : List V3)
    (inds : List ℕ) (brs : List BevelRings) (fb bb : List ℕ) (depth : ℚ)
    (res : List V3 × List ℕ)
    (hcap : ∀ inp g, capTess inp = some g →
      ∀ i ∈ g.indices, i < g.vertices.length)
    (hok : tessellate_and_connect_caps capTess verts inds brs fb bb depth =
      .ok res) :
    ((∀ x ∈ inds, x < verts.length) → ∀ x ∈ res.2, x < res.1.length) ∧
    (inds.length % 3 = 0 → res.2.length % 3 = 0) := by
  rw [tessellate_and_connect_caps] at hok
  dsimp only at hok
  split at hok
  · cases hok
  · rename_i front_cap hf
    obtain ⟨inpF, hinpF⟩ := tessellate_contours_ok capTess _ 0 front_cap hf
    obtain ⟨hb1, hm1⟩ := tessellate_cap_connect_spec verts inds front_cap fb
      (brs.map fun r => r.outer_contour) 0 false (hcap _ _ hinpF)
    split at hok
    · cases hok
    · rename_i back_cap hbk
      obtain ⟨inpB, hinpB⟩ := tessellate_contours_ok capTess _ depth back_cap hbk
      obtain ⟨hb2, hm2⟩ := tessellate_cap_connect_spec
        (tessellate_cap_interior_and_connect_to_boundary verts inds front_cap
          fb (brs.map fun r => r.outer_contour) 0 false).1
        (tessellate_cap_interior_and_connect_to_boundary verts inds front_cap
          fb (brs.map fun r => r.outer_contour) 0 false).2
        back_cap bb (brs.map fun r => r.inner_contour) depth true
        (hcap _ _ hinpB)
      cases hok
      exact ⟨fun h0 => hb2 (hb1 h0), fun h0 => hm2 (hm1 h0)⟩

/-- C8 counterexample: with every supplied front-cap index below the
front-cap vertex count, `build_beveled_mesh` can still return a geometry
whose index count is not divisible by 3 (front-cap index list `[0]` is
passed through unchanged), and — with 2-vertex rings — a geometry with
out-of-range indices (the back-cap fan is sized by the clamped target
count 4, not the actual 2 ring vertices). -/
theorem build_mesh_geometry_invariant_counterexample :
    (([0] : List ℕ).all fun i => decide (i < ([v3zero] : List V3).length)) =
      true ∧
    (build_beveled_mesh (fun _ => 0) [v3zero] [0] [] 1).map
      (fun g => g.indices.length % 3) = some 1 ∧
    (build_beveled_mesh (fun _ => 0) [] [] [twoVertexBevelRing] 1).map
      (fun g => decide (∀ i ∈ g.indices, i < g.vertices.length)) =
      some false := by
  refine ⟨by decide, rfl, ?_⟩
  with_unfolding_all decide

/-- C8 (corrected): every geometry successfully returned by
`build_beveled_mesh` satisfies the `ExtrudedMeshGeometry` invariant
provided the front-cap index count is divisible by 3, every front-cap
index is below the front-cap vertex count, and every contour has at least
3 vertices; every geometry returned by `build_mesh_from_bevel_rings`
satisfies it provided the cap tessellator only returns geometries whose
indices are below their own vertex counts. -/
theorem build_mesh_geometry_invariant (sq : ℚ → ℚ)
    (capTess : CapTessInput → Option CapGeometry)
    (front_cap_vertices : List V3) (front_cap_indices : List ℕ)
    (bevel_rings : List BevelRings) (extrusion_depth : ℚ)
    (hmod : front_cap_indices.length % 3 = 0)
    (hlt : ∀ i ∈ front_cap_indices, i < front_cap_vertices.length)
    (hc3 : ∀ br ∈ bevel_rings,
      ∀ c ∈ br.outer_contour :: (br.rings ++ [br.inner_contour]),
        3 ≤ c.vertices.length)
    (hcap : ∀ inp g, capTess inp = some g →
      ∀ i ∈ g.indices, i < g.vertices.length) :
    (∀ geo, build_beveled_mesh sq front_cap_vertices front_cap_indices
        bevel_rings extrusion_depth = some geo → geometryInvariant geo) ∧
    (∀ geo, build_mesh_from_bevel_rings sq capTess bevel_rings
        extrusion_depth = .ok geo → geometryInvariant geo) := by
  constructor
  · intro geo hgeo
    obtain ⟨st2, hfold, hbd, hmd⟩ := buildBevelGeomFold_spec sq extrusion_depth
      bevel_rings (front_cap_vertices, front_cap_indices) hc3
    rw [build_beveled_mesh, hfold] at hgeo
    simp only [Option.map_some'] at hgeo
    cases hgeo
    exact ⟨(generate_smooth_normals_length sq st2.1 st2.2).symm,
      (generate_uvs_length st2.1 extrusion_depth).symm,
      hmd hmod, hbd hlt⟩
  · intro geo hgeo
    obtain ⟨st2, hfold, hbd, hmd⟩ := buildRingsWithBoundaries_spec
      extrusion_depth bevel_rings ([], [], [], [])
    obtain ⟨sv, si, sf, sb⟩ := st2
    rw [build_mesh_from_bevel_rings, hfold] at hgeo
    dsimp only at hgeo
    split at hgeo
    · cases hgeo
    · rename_i rv ri htc
      obtain ⟨hb2, hm2⟩ := tessellate_and_connect_caps_spec capTess sv si
        bevel_rings sf sb extrusion_depth (rv, ri) hcap htc
      cases hgeo
      exact ⟨(generate_smooth_normals_length sq rv ri).symm,
        (generate_uvs_length rv extrusion_depth).symm,
        hm2 (hmd rfl), hb2 (hbd (by simp))⟩

/-- C8 witness: a single front-cap triangle with no bevel rings builds a
geometry satisfying the invariant. -/
theorem build_mesh_geometry_invariant_witness :
    ([0, 0, 0] : List ℕ).length % 3 = 0 ∧
    geometryInvariant ⟨[v3zero], [0, 0, 0],
      generate_smooth_normals (fun _ => 0) [v3zero] [0, 0, 0],
      generate_uvs_for_beveled_mesh [v3zero] 1⟩ :=
  ⟨rfl,
   (build_mesh_geometry_invariant (fun _ => 0) (fun _ => none) [v3zero]
       [0, 0, 0] [] 1 rfl (by decide) (by simp)
       (fun inp g h => Option.noConfusion h)).1
     ⟨[v3zero], [0, 0, 0],
      generate_smooth_normals (fun _ => 0) [v3zero] [0, 0, 0],
      generate_uvs_for_beveled_mesh [v3zero] 1⟩ rfl⟩

/-! ## C2 -/

/-- A `BevelRings` with a 4-vertex outer and a 5-vertex inner contour,
exercising the boundaries path on rings with unequal vertex counts. -/
def mixedCountBevelRing : BevelRings :=
  ⟨⟨[⟨0, 0⟩, ⟨4, 0⟩, ⟨4, 4⟩, ⟨0, 4⟩], true⟩,
   ⟨[⟨1, 1⟩, ⟨3, 1⟩, ⟨3, 2⟩, ⟨3, 3⟩, ⟨1, 3⟩], true⟩, []⟩

/-- A `BevelRings` with a 3-vertex outer and a 5-vertex inner contour,
whose common resampling target is 5. -/
def mixedBevelRing : BevelRings :=
  ⟨⟨[⟨0, 0⟩, ⟨6, 0⟩, ⟨0, 6⟩], true⟩,
   ⟨[⟨1, 1⟩, ⟨3, 1⟩, ⟨3, 3⟩, ⟨2, 3⟩, ⟨1, 3⟩], true⟩, []⟩

/-- C2 counterexample: `build_mesh_from_bevel_rings`'s ring path
(`build_bevel_ring_geometry_with_boundaries`) performs no resampling at
all — a 4-vertex outer and 5-vertex inner contour are pushed as-is
(4 + 5 = 9 vertices, boundary ranges of lengths 4 and 5) and the
mismatched consecutive pair is skipped, not bridged (no side indices);
and in `build_beveled_mesh` rings with fewer than 3 vertices bypass
resampling (2 + 2 + 2 = 6 vertices instead of 3 rings at the clamped
target 4). -/
theorem resample_common_target_counterexample :
    (build_bevel_ring_geometry_with_boundaries [] [] mixedCountBevelRing
        1 0).map
      (fun r => (r.1.1.length, r.1.2.length, r.2.1.length, r.2.2.length)) =
      .ok (9, 0, 4, 5) ∧
    (build_beveled_mesh (fun _ => 0) [] [] [twoVertexBevelRing] 1).map
      (fun g => g.vertices.length) = some 6 := by
  refine ⟨?_, ?_⟩ <;> with_unfolding_all decide

/-- C2 (corrected): in `build_beveled_mesh`'s per-subcontour ring list
(outer contour, intermediate rings, inner contour, appended back ring),
when every contour has at least 3 vertices, every ring is resampled to the
common target count — the maximum ring vertex count clamped to [4, 256] —
so all resampled rings have equal vertex counts and bridging every
consecutive pair succeeds.  (The `build_mesh_from_bevel_rings` ring path
never resamples; see the counterexample.) -/
theorem resample_common_target (sq : ℚ → ℚ) (br : BevelRings) (t : ℕ)
    (ht : t = determine_optimal_vertex_count (allRingRefs br))
    (h3 : ∀ c ∈ br.outer_contour :: (br.rings ++ [br.inner_contour]),
      3 ≤ c.vertices.length) :
    ((allRingRefs br).map fun r =>
        (resample_contour sq r t).vertices.length) =
      List.replicate (allRingRefs br).length t ∧
    t = min (max (((allRingRefs br).map fun r =>
        r.vertices.length).foldr max 0) 4) 256 ∧
    ∀ s, (bridgeRings s ((allRingRefs br).map fun r =>
        resample_contour sq r t)).isSome = true := by
  have hge3 := allRingRefs_ge_3 br h3
  have hlen : ∀ r ∈ allRingRefs br,
      (resample_contour sq r t).vertices.length = t :=
    fun r hr => resample_contour_length sq r t (hge3 r hr)
  refine ⟨?_, ?_, ?_⟩
  · have h := List.eq_replicate_of_mem (a := t)
      (l := (allRingRefs br).map fun r =>
        (resample_contour sq r t).vertices.length) ?_
    · rw [List.length_map] at h
      exact h
    · intro b hb
      rcases List.mem_map.mp hb with ⟨r, hr, hre⟩
      rw [← hre]
      exact hlen r hr
  · rw [ht]
    rfl
  · intro s
    obtain ⟨out, hout, _, _⟩ := bridgeRings_spec t
      ((allRingRefs br).map fun r => resample_contour sq r t) s
      (fun r hr => by
        rcases List.mem_map.mp hr with ⟨c, hc, hce⟩
        rw [← hce]
        exact hlen c hc)
    rw [hout]
    rfl

/-- C2 witness: a 3-vertex outer and 5-vertex inner contour resample to
the common target 5 and bridge successfully. -/
theorem resample_common_target_witness :
    5 = determine_optimal_vertex_count (allRingRefs mixedBevelRing) ∧
    ((allRingRefs mixedBevelRing).map fun r =>
        (resample_contour (fun _ => 0) r 5).vertices.length) =
      List.replicate (allRingRefs mixedBevelRing).length 5 ∧
    (bridgeRings 0 ((allRingRefs mixedBevelRing).map fun r =>
        resample_contour (fun _ => 0) r 5)).isSome = true :=
  ⟨by with_unfolding_all decide,
   (resample_common_target (fun _ => 0) mixedBevelRing 5
      (by with_unfolding_all decide) (by with_unfolding_all decide)).1,
   (resample_common_target (fun _ => 0) mixedBevelRing 5
      (by with_unfolding_all decide) (by with_unfolding_all decide)).2.2 0⟩

/-! ## C3: check_mesh -/

/-- An `f32` value: finite (exact rational) or one of the non-finite
classes `NaN`, `+inf`, `-inf`. -/
inductive FQ where
  | fin (q : ℚ)
  | nan
  | inf
  | ninf
deriving DecidableEq, Repr

/-- A vertex or normal whose components may be non-finite. -/
structure V3F where
  x : FQ
  y : FQ
  z : FQ
deriving DecidableEq, Repr

/-- Rust `f32::is_finite`. -/
def FQ.isFinite : FQ → Bool
  | .fin _ => true
  | _ => false

/-- The rational value of a finite `FQ` (0 for the non-finite classes;
only used where finiteness was already checked). -/
def FQ.toQ : FQ → ℚ
  | .fin q => q
  | _ => 0

/-- Rust `v.abs() > c` for a positive threshold `c`: false for NaN, true
for both infinities. -/
def fqAbsGt (c : ℚ) : FQ → Bool
  | .fin q => decide (c < |q|)
  | .nan => false
  | .inf => true
  | .ninf => true

/-- All three components are finite. -/
def v3fFinite (v : V3F) : Bool := v.x.isFinite && v.y.isFinite && v.z.isFinite

/-- Component-wise rational value. -/
def v3fToV3 (v : V3F) : V3 := ⟨v.x.toQ, v.y.toQ, v.z.toQ⟩

/-- src/mesh.rs `check_mesh` extreme-coordinate test: some component's
magnitude exceeds `MAX_REASONABLE_COORD = 1000`. -/
def v3fExtreme (v : V3F) : Bool :=
  fqAbsGt 1000 v.x || fqAbsGt 1000 v.y || fqAbsGt 1000 v.z

/-- src/mesh.rs `check_mesh` degenerate-triangle test
`(b - a).cross(c - a).length() < 1e-6`, in the equivalent squared form. -/
def degenerateTriangle (a b c : V3) : Bool :=
  decide (v3normSq (v3cross (v3sub b a) (v3sub c a)) < 1 / 10 ^ 12)

/-- src/mesh.rs `check_mesh` invalid-normal test
`(length - 1.0).abs() > 0.01`: NaN length compares false; an infinite
length exceeds the tolerance; a finite length deviates from 1 by more
than 0.01 iff its square lies outside [0.9801, 1.0201]. -/
def normalInvalid (n : V3F) : Bool :=
  if v3fFinite n then
    let s := v3normSq (v3fToV3 n)
    decide (s < 9801 / 10000) || decide (10201 / 10000 < s)
  else if n.x = .nan || n.y = .nan || n.z = .nan then false
  else true

/-- src/mesh.rs `MeshValidation`. -/
structure MeshValidation where
  vertex_count : ℕ
  triangle_count : ℕ
  degenerate_triangles : ℕ
  invalid_normals : ℕ
  extreme_vertices : ℕ
deriving DecidableEq, Repr

/-- A geometry whose vertex and normal components may be non-finite
(src/mesh.rs `BeveledGlyphGeometry` as consumed by `check_mesh`). -/
structure GeometryF where
  vertices : List V3F
  indices : List ℕ
  normals : List V3F
  uvs : List V2
deriving DecidableEq, Repr

/-- The degenerate-triangle count of `check_mesh` (full index triples
only; `i + 2 < len` skips a trailing partial chunk). -/
def degenerateCount (g : GeometryF) : ℕ :=
  ((chunks3 g.indices).filter fun t =>
    degenerateTriangle ((g.vertices.map v3fToV3).getD t.1 v3zero)
      ((g.vertices.map v3fToV3).getD t.2.1 v3zero)
      ((g.vertices.map v3fToV3).getD t.2.2 v3zero)).length

/-- The invalid-normal count of `check_mesh`. -/
def invalidNormalCount (g : GeometryF) : ℕ :=
  (g.normals.filter normalInvalid).length

/-- The extreme-vertex count of `check_mesh`. -/
def extremeVertexCount (g : GeometryF) : ℕ :=
  (g.vertices.filter v3fExtreme).length

/-- src/mesh.rs `check_mesh`.  Early returns become nested conditionals
in source order: index count, attribute lengths, vertex finiteness (the
per-vertex extreme count is folded into `extremeVertexCount`, whose value
is only consulted after all finiteness checks pass), the
degenerate-triangle loop — whose direct `vertices[indices[i]]` accesses
panic (`none`) on an out-of-range index — normal finiteness, then the
three ratio thresholds.  All `InvalidMesh(msg)` returns collapse to the
payload-free `MeshTextError.InvalidMesh`. -/
def check_mesh (g : GeometryF) : Option (Except MeshTextError MeshValidation) :=
  let vertex_count := g.vertices.length
  let triangle_count := g.indices.length / 3
  if g.indices.length % 3 = 0 then
    if g.vertices.length = g.normals.length ∧
        g.vertices.length = g.uvs.length then
      if g.vertices.all v3fFinite then
        if (chunks3 g.indices).all (fun t => decide (t.1 < vertex_count ∧
            t.2.1 < vertex_count ∧ t.2.2 < vertex_count)) then
          if g.normals.all v3fFinite then
            if triangle_count / 10 < degenerateCount g then
              some (.error .InvalidMesh)
            else if vertex_count / 10 < invalidNormalCount g then
              some (.error .InvalidMesh)
            else if vertex_count / 20 < extremeVertexCount g then
              some (.error .InvalidMesh)
            else
              some (.ok ⟨vertex_count, triangle_count, degenerateCount g,
                invalidNormalCount g, extremeVertexCount g⟩)
          else some (.error .InvalidMesh)
        else none
      else some (.error .InvalidMesh)
    else some (.error .InvalidMesh)
  else some (.error .InvalidMesh)

/-- A failed `List.all` over finiteness yields a witness component. -/
theorem all_finite_exists_false (l : List V3F) (h : ¬ l.all v3fFinite = true) :
    ∃ v ∈ l, v3fFinite v = false := by
  rw [List.all_eq_true] at h
  push_neg at h
  obtain ⟨v, hv, hb⟩ := h
  exact ⟨v, hv, by simpa using hb⟩

/-- C3 counterexample: a geometry with an out-of-range index but no hard
or soft failure condition makes `check_mesh` panic (the
`vertices[indices[i]]` access in the degenerate-triangle loop), so it
neither rejects with `InvalidMesh` nor returns a `MeshValidation`. -/
theorem check_mesh_rejects_iff_counterexample :
    check_mesh ⟨[⟨.fin 0, .fin 0, .fin 0⟩], [1, 1, 1],
      [⟨.fin 0, .fin 0, .fin 1⟩], [⟨0, 0⟩]⟩ = none := by
  with_unfolding_all decide

/-- C3 (corrected): `check_mesh` always rejects a geometry containing a
non-finite vertex component, regardless of the other counts; and on every
geometry whose indices are all below the vertex count it returns a value,
rejecting with `InvalidMesh` exactly when the index count is not
divisible by 3, the attribute array lengths differ, a vertex or normal
component is non-finite, degenerate triangles exceed 10% of the triangle
count, invalid normals exceed 10% of the vertex count, or extreme
vertices exceed 5% of the vertex count (the integer-division thresholds
`> n/10` and `> n/20` are exactly the 10% and 5% ratio tests).  A geometry
with an out-of-range index and no prior hard failure instead panics. -/
theorem check_mesh_rejects_iff (g : GeometryF) :
    ((∃ v ∈ g.vertices, v3fFinite v = false) →
      check_mesh g = some (.error .InvalidMesh)) ∧
    ((∀ t ∈ chunks3 g.indices, t.1 < g.vertices.length ∧
        t.2.1 < g.vertices.length ∧ t.2.2 < g.vertices.length) →
      (check_mesh g).isSome = true ∧
      (check_mesh g = some (.error .InvalidMesh) ↔
        (¬ g.indices.length % 3 = 0 ∨
         ¬ g.vertices.length = g.normals.length ∨
         ¬ g.vertices.length = g.uvs.length ∨
         (∃ v ∈ g.vertices, v3fFinite v = false) ∨
         (∃ n ∈ g.normals, v3fFinite n = false) ∨
         g.indices.length / 3 < 10 * degenerateCount g ∨
         g.vertices.length < 10 * invalidNormalCount g ∨
         g.vertices.length < 20 * extremeVertexCount g))) := by
  constructor
  · rintro ⟨v, hv, hfin⟩
    have hall : ¬ g.vertices.all v3fFinite = true := by
      rw [List.all_eq_true]
      intro hco
      have := hco v hv
      rw [hfin] at this
      cases this
    rw [check_mesh]
    split_ifs <;> first | rfl | (exact absurd (by assumption) hall)
  · intro hidx
    have hc4 : (chunks3 g.indices).all (fun t => decide (t.1 < g.vertices.length ∧
        t.2.1 < g.vertices.length ∧ t.2.2 < g.vertices.length)) = true := by
      rw [List.all_eq_true]
      intro t ht
      exact decide_eq_true (hidx t ht)
    rw [check_mesh]
    split_ifs
    all_goals try exact absurd hc4 (by assumption)
    all_goals refine ⟨rfl, ?_⟩
    · exact iff_of_true rfl (Or.inr (Or.inr (Or.inr (Or.inr (Or.inr
        (Or.inl (by omega)))))))
    · exact iff_of_true rfl (Or.inr (Or.inr (Or.inr (Or.inr (Or.inr
        (Or.inr (Or.inl (by omega))))))))
    · exact iff_of_true rfl (Or.inr (Or.inr (Or.inr (Or.inr (Or.inr
        (Or.inr (Or.inr (by omega))))))))
    · rename_i hm hl hvf hnf hdg hin hex
      refine iff_of_false (by simp) ?_
      rintro (h | h | h | ⟨v, hv, hfv⟩ | ⟨n, hn, hfn⟩ | h | h | h)
      · exact h hm
      · exact h hl.1
      · exact h hl.2
      · have hvt := List.all_eq_true.mp hvf v hv
        rw [hfv] at hvt
        cases hvt
      · have hnt := List.all_eq_true.mp hnf n hn
        rw [hfn] at hnt
        cases hnt
      · omega
      · omega
      · omega
    · rename_i h
      exact iff_of_true rfl (Or.inr (Or.inr (Or.inr (Or.inr
        (Or.inl (all_finite_exists_false _ h))))))
    · rename_i h
      exact iff_of_true rfl (Or.inr (Or.inr (Or.inr
        (Or.inl (all_finite_exists_false _ h)))))
    · rename_i h
      rcases not_and_or.mp h with h2 | h3
      · exact iff_of_true rfl (Or.inr (Or.inl h2))
      · exact iff_of_true rfl (Or.inr (Or.inr (Or.inl h3)))
    · rename_i h
      exact iff_of_true rfl (Or.inl h)

/-- C3 witness: a geometry with a NaN vertex component and in-range
indices is rejected, and `check_mesh` returns a value on it. -/
theorem check_mesh_rejects_iff_witness :
    check_mesh ⟨[⟨.nan, .fin 0, .fin 0⟩], [0, 0, 0],
        [⟨.fin 0, .fin 0, .fin 1⟩], [⟨0, 0⟩]⟩ =
      some (.error .InvalidMesh) ∧
    (check_mesh ⟨[⟨.nan, .fin 0, .fin 0⟩], [0, 0, 0],
        [⟨.fin 0, .fin 0, .fin 1⟩], [⟨0, 0⟩]⟩).isSome = true :=
  ⟨(check_mesh_rejects_iff _).1 ⟨⟨.nan, .fin 0, .fin 0⟩, by decide, rfl⟩,
   ((check_mesh_rejects_iff _).2 (by decide)).1⟩
